import Mathlib

/-!
Verification of the account/transaction core of the `vale` ledger.

Rust strings and byte vectors are both modelled as `List Nat` of byte
values; machine integers are `Nat`/`Int` with explicit reductions
modulo `2 ^ w` where the code can overflow.  External cryptographic
primitives (blake3, the ristretto basepoint multiplication) are taken
as function parameters, since no claim depends on their concrete
values; everything else is translated directly from the source.
-/

/-! ### Definitions -/

abbrev Bytes := List Nat

/-- Byte values of an ASCII string literal (UTF-8 of ASCII text). -/
def ascii (s : String) : Bytes := s.data.map Char.toNat

/-- Little-endian interpretation of a byte list. -/
def leNat : Bytes → Nat
  | [] => 0
  | b :: t => b + 256 * leNat t

/-- `w`-byte little-endian encoding of `n % 256 ^ w`. -/
def natToLeBytes : Nat → Nat → Bytes
  | 0, _ => []
  | w + 1, n => n % 256 :: natToLeBytes w (n / 256)

/-- Big-endian fixed-width encoding (Rust's `to_be_bytes`). -/
def natToBeBytes (w n : Nat) : Bytes := (natToLeBytes w n).reverse

/-- Lowercase hex character of a digit (the `hex` crate's encoder). -/
def hexCharOfDigit (d : Nat) : Nat := if d < 10 then 48 + d else 87 + d

/-- `hex::encode` on a byte list, producing ASCII character bytes. -/
def hexEncodeBytes : Bytes → Bytes
  | [] => []
  | b :: t => hexCharOfDigit (b / 16) :: hexCharOfDigit (b % 16) :: hexEncodeBytes t

/-- Value of one ASCII hex character (`hex` crate accepts both cases). -/
def hexDigitVal (c : Nat) : Option Nat :=
  if 48 ≤ c ∧ c ≤ 57 then some (c - 48)
  else if 97 ≤ c ∧ c ≤ 102 then some (c - 87)
  else if 65 ≤ c ∧ c ≤ 70 then some (c - 55)
  else none

/-- `hex::decode` on ASCII character bytes. -/
def hexDecodeAscii : Bytes → Option Bytes
  | [] => some []
  | [_] => none
  | c1 :: c2 :: t =>
      match hexDigitVal c1, hexDigitVal c2, hexDecodeAscii t with
      | some d1, some d2, some r => some ((16 * d1 + d2) :: r)
      | _, _, _ => none

/-- Bincode serialization of `i64`: 8 bytes little-endian two's complement. -/
def encodeI64 (i : Int) : Bytes := natToLeBytes 8 (i % (2 ^ 64 : Int)).toNat

/-- Bincode deserialization of `i64` from the first 8 bytes. -/
def decodeI64 (bs : Bytes) : Option Int :=
  if bs.length < 8 then none
  else
    let u := leNat (bs.take 8)
    some (if u < 2 ^ 63 then (u : Int) else (u : Int) - 2 ^ 64)

/-! ## Storage engine (src/store/storage.rs)

The RocksDB instance is modelled as a map from column-family name
(byte string) to a list of key/value entries kept sorted in ascending
lexicographic byte order, matching RocksDB's iteration order.  A `put`
returns the successor state together with the `Result`; the state
component also records the partial effect of a write whose subsequent
analytics update fails, as in the source. -/

instance {ε α : Type} [DecidableEq ε] [DecidableEq α] : DecidableEq (Except ε α) := fun a b =>
  match a, b with
  | .ok x, .ok y =>
      match decEq x y with
      | isTrue h => isTrue (by rw [h])
      | isFalse h => isFalse (by intro hc; cases hc; exact h rfl)
  | .error x, .error y =>
      match decEq x y with
      | isTrue h => isTrue (by rw [h])
      | isFalse h => isFalse (by intro hc; cases hc; exact h rfl)
  | .ok _, .error _ => isFalse (by intro hc; cases hc)
  | .error _, .ok _ => isFalse (by intro hc; cases hc)

abbrev Store := Bytes → List (Bytes × Bytes)

namespace Storage

/-- Lexicographic byte-order on keys (RocksDB's default comparator). -/
def ltBytes : Bytes → Bytes → Bool
  | [], [] => false
  | [], _ :: _ => true
  | _ :: _, [] => false
  | a :: as_, b :: bs_ => if a < b then true else if a = b then ltBytes as_ bs_ else false

/-- Insert or overwrite a key in a sorted entry list (`put_cf`). -/
def insertEntry : List (Bytes × Bytes) → Bytes → Bytes → List (Bytes × Bytes)
  | [], k, v => [(k, v)]
  | (k', v') :: t, k, v =>
      if ltBytes k k' then (k, v) :: (k', v') :: t
      else if k = k' then (k, v) :: t
      else (k', v') :: insertEntry t k v

/-- Point lookup in an entry list (`get_cf`). -/
def lookupEntry : List (Bytes × Bytes) → Bytes → Option Bytes
  | [], _ => none
  | (k', v') :: t, k => if k = k' then some v' else lookupEntry t k

/-- Raw keyed read of the store. -/
def getRaw (s : Store) (cf k : Bytes) : Option Bytes := lookupEntry (s cf) k

/-- Raw keyed write of the store. -/
def writeRaw (s : Store) (cf k v : Bytes) : Store :=
  fun f => if f = cf then insertEntry (s cf) k v else s f

/-- The store with all column families empty. -/
def emptyStore : Store := fun _ => []

/-- `Storage::get`. -/
def get (s : Store) (cf k : Bytes) : Except Bytes Bytes :=
  match getRaw s cf k with
  | some v => .ok v
  | none => .error (ascii "Key not found")

/-- `Storage::exists`. -/
def existsKey (s : Store) (cf k : Bytes) : Bool := (getRaw s cf k).isSome

/-- `Storage::update_analytics`: read-modify-write of the per-family
counter in the `analytics` family; a missing entry becomes 1, an
existing entry is deserialized as `i64`, incremented and written
back.  A deserialization failure propagates as an error. -/
def update_analytics (s : Store) (key : Bytes) : Except Bytes Store :=
  match getRaw s (ascii "analytics") key with
  | some data =>
      match decodeI64 data with
      | none => .error (ascii "bincode deserialize error")
      | some n => .ok (writeRaw s (ascii "analytics") key (encodeI64 (n + 1)))
  | none => .ok (writeRaw s (ascii "analytics") key (encodeI64 1))

/-- `Storage::put`: optional existence check, primary write, then the
analytics increment keyed by the family name.  The returned state
keeps the primary write even when the analytics step fails. -/
def put (s : Store) (cf key value : Bytes) (check_exist : Bool) :
    Store × Except Bytes Unit :=
  if check_exist && existsKey s cf key then
    (s, .error (ascii "Record exists! Mutating value is not allowed."))
  else
    let s1 := writeRaw s cf key value
    match update_analytics s1 cf with
    | .ok s2 => (s2, .ok ())
    | .error e => (s1, .error e)

/-- `Storage::batch_get`: skip `start` entries of the family in key
order, then take up to `limit`. -/
def batch_get (s : Store) (cf : Bytes) (start limit : Nat) :
    Except Bytes (List (Bytes × Bytes)) :=
  .ok (((s cf).drop start).take limit)

/-- `Storage::get_analytics`. -/
def get_analytics (s : Store) (key : Bytes) : Except Bytes Int :=
  match getRaw s (ascii "analytics") key with
  | none => .error (ascii "Analytics doesn't exist")
  | some data =>
      match decodeI64 data with
      | none => .error (ascii "bincode deserialize error")
      | some n => .ok n

/-- Sequence of single `put` calls on one family, stopping at the
first failure (each caller propagates the error with `?`). -/
def putMany (s : Store) (cf : Bytes) : List (Bytes × Bytes × Bool) → Store × Except Bytes Unit
  | [] => (s, .ok ())
  | (k, v, b) :: t =>
      match put s cf k v b with
      | (s1, .ok _) => putMany s1 cf t
      | (s1, .error e) => (s1, .error e)

end Storage

/-! ## Symmetric cipher (src/vault/crypto.rs)

The repository calls the external `chacha20poly1305` crate for the
AEAD seal/open; only the envelope handling (hex key decoding, key and
nonce lengths, nonce prefixing, splitting) is repository code.  The
AEAD itself is therefore modelled from the spec (section 4.2): a
deterministic keystream cipher plus a 16-byte authenticator over key,
nonce and ciphertext that detects any single-bit modification. -/

/-- Pointwise XOR of two byte lists. -/
def xorBytes (a b : Bytes) : Bytes := List.zipWith (fun x y => x ^^^ y) a b

/-- Modelled from the spec: one keystream byte of the missing
ChaCha20 stream (the concrete values are irrelevant to every claim). -/
def ksByte (key nonce : Bytes) (i : Nat) : Nat :=
  (key.foldl (· + ·) 0 + 59 * nonce.foldl (· + ·) 0 + i * (i + 3) + 1) % 256

/-- Modelled from the spec: the keystream of the missing ChaCha20
stream cipher, one byte per payload byte. -/
def keystream (key nonce : Bytes) (n : Nat) : Bytes :=
  (List.range n).map (ksByte key nonce)

/-- XOR of `f j` over `j < n`, used to build the authenticator. -/
def foldXor (f : Nat → Nat) : Nat → Nat
  | 0 => 0
  | n + 1 => foldXor f n ^^^ f n

/-- Contribution of the byte at stream position `pos` to the
authenticator: the XOR of a distinct 128-bit power of two for each
set bit among the low 8 bits. -/
def contrib (pos b : Nat) : Nat :=
  foldXor (fun i => if b.testBit i then 2 ^ (8 * (pos % 16) + i) else 0) 8

/-- Authenticator accumulation over a byte stream starting at
position `pos`. -/
def tagFrom : Nat → Bytes → Nat
  | _, [] => 0
  | pos, b :: t => contrib pos b ^^^ tagFrom (pos + 1) t

/-- Modelled from the spec: the 128-bit authenticator of the missing
Poly1305 MAC, taken over key, nonce and ciphertext. -/
def tagNat (key nonce ct : Bytes) : Nat := tagFrom 0 (key ++ nonce ++ ct)

/-- The authenticator as the 16 trailing tag bytes. -/
def tagBytes (key nonce ct : Bytes) : Bytes := natToLeBytes 16 (tagNat key nonce ct)

/-- Modelled from the spec: AEAD sealing of the missing
`chacha20poly1305` crate; keystream-XOR then append the 16-byte tag. -/
def aead_seal (key nonce p : Bytes) : Bytes :=
  let ct := xorBytes p (keystream key nonce p.length)
  ct ++ tagBytes key nonce ct

/-- Modelled from the spec: AEAD opening of the missing
`chacha20poly1305` crate; verify the trailing tag, then undo the
keystream XOR.  Fails on any mismatch. -/
def aead_open (key nonce c : Bytes) : Option Bytes :=
  if c.length < 16 then none
  else
    let ct := c.take (c.length - 16)
    let t := c.drop (c.length - 16)
    if t = tagBytes key nonce ct then some (xorBytes ct (keystream key nonce ct.length))
    else none

/-- Return type of `Crypto::encrypt` / `Crypto::decrypt`. -/
structure CryptoS where
  data : Bytes
  key : Option Bytes
deriving DecidableEq

/-- `Crypto::encrypt`: decode and length-check a supplied hex key or
use the freshly generated key `genKey`; seal under the random `nonce`
and prepend it; return the key as lowercase hex. -/
def Crypto.encrypt (genKey nonce data : Bytes) (encryption_key : Option Bytes) :
    Except Bytes CryptoS :=
  match
    (match encryption_key with
     | some key_str =>
         match hexDecodeAscii key_str with
         | none => Except.error (ascii "Invalid key encoding")
         | some key_bytes =>
             if key_bytes.length ≠ 32 then
               Except.error (ascii "Key must be 32 bytes long for ChaCha20-Poly1305.")
             else Except.ok key_bytes
     | none => Except.ok genKey) with
  | .error e => .error e
  | .ok key =>
      let ciphertext := aead_seal key nonce data
      .ok { data := nonce ++ ciphertext, key := some (hexEncodeBytes key) }

/-- `Crypto::decrypt`: decode and length-check the hex key, require a
12-byte nonce prefix, split it off and open the remainder. -/
def Crypto.decrypt (encrypted_data key : Bytes) : Except Bytes CryptoS :=
  match hexDecodeAscii key with
  | none => .error (ascii "Invalid key encoding")
  | some key_bytes =>
      if key_bytes.length ≠ 32 then
        .error (ascii "Key must be 32 bytes long for ChaCha20-Poly1305.")
      else if encrypted_data.length < 12 then
        .error (ascii "Invalid encrypted data length.")
      else
        match aead_open key_bytes (encrypted_data.take 12) (encrypted_data.drop 12) with
        | none => .error (ascii "Decryption failed")
        | some pt => .ok { data := pt, key := none }

/-! ## Bincode serialization (the `bincode` crate's fixed encoding)

Bincode writes `String` and `Vec<u8>` as a `u64` little-endian byte
length followed by the raw bytes, `u64`/`f64` as 8 little-endian
bytes, and an enum as a `u32` little-endian variant index followed by
the payload.  `f64` fields are carried as their 64-bit IEEE-754 bit
patterns (`Nat`), since no claim computes with their numeric values.
Decoders parse a prefix and return the remaining bytes. -/

/-- Bincode encoding of a byte string (`String` / `Vec<u8>`). -/
def writeBytes (v : Bytes) : Bytes := natToLeBytes 8 v.length ++ v

/-- Bincode decoding of a byte string prefix. -/
def readBytes (l : Bytes) : Option (Bytes × Bytes) :=
  if l.length < 8 then none
  else
    let n := leNat (l.take 8)
    let rest := l.drop 8
    if n ≤ rest.length then some (rest.take n, rest.drop n) else none

/-- Bincode encoding of a `u64` (also used for `f64` bit patterns). -/
def writeU64 (n : Nat) : Bytes := natToLeBytes 8 n

/-- Bincode decoding of a `u64` prefix. -/
def readU64 (l : Bytes) : Option (Nat × Bytes) :=
  if l.length < 8 then none else some (leNat (l.take 8), l.drop 8)

/-- Bincode encoding of an enum variant index (`u32`). -/
def writeU32 (n : Nat) : Bytes := natToLeBytes 4 n

/-- Bincode decoding of an enum variant index. -/
def readU32 (l : Bytes) : Option (Nat × Bytes) :=
  if l.length < 4 then none else some (leNat (l.take 4), l.drop 4)

/-! ## Transaction data model (src/tx/transaction.rs) -/

/-- `TransactionData { sender, receiver, amount }`; `amount` is the
`f64` bit pattern. -/
structure TransactionDataS where
  sender : Bytes
  receiver : Bytes
  amount : Nat
deriving DecidableEq

/-- `EncryptData`. -/
inductive EncryptDataS
  | Plain (s : Bytes)
  | Vector (v : Bytes)
deriving DecidableEq

/-- `TransactionPrimitive`. -/
inductive TransactionPrimitiveS
  | Plain (td : TransactionDataS)
  | Encrypt (e : EncryptDataS)
deriving DecidableEq

/-- `PlainTransaction`; `amount`, `fee` and `size` are `f64` bit
patterns, `timestamp` a `u64`. -/
structure PlainTransactionS where
  id : Bytes
  sender : Bytes
  receiver : Bytes
  amount : Nat
  fee : Nat
  size : Nat
  timestamp : Nat
  narration : Bytes
  status : Bytes
  tx_key : Option Bytes
deriving DecidableEq

/-- `EncryptedTransaction`. -/
structure EncryptedTransactionS where
  id : Bytes
  sender_data : TransactionPrimitiveS
  receiver_data : TransactionPrimitiveS
  fee : Nat
  size : Nat
  timestamp : Nat
  narration : Bytes
  status : Bytes
deriving DecidableEq

/-- `Transaction`. -/
inductive TransactionS
  | Plain (t : PlainTransactionS)
  | Encrypted (e : EncryptedTransactionS)
deriving DecidableEq

/-- Bincode encoding of `TransactionData`. -/
def writeTransactionData (td : TransactionDataS) : Bytes :=
  writeBytes td.sender ++ writeBytes td.receiver ++ writeU64 td.amount

/-- Bincode decoding of a `TransactionData` prefix. -/
def readTransactionData (l : Bytes) : Option (TransactionDataS × Bytes) :=
  match readBytes l with
  | none => none
  | some (s, l1) =>
      match readBytes l1 with
      | none => none
      | some (r, l2) =>
          match readU64 l2 with
          | none => none
          | some (a, l3) => some (⟨s, r, a⟩, l3)

/-- Bincode encoding of `EncryptData`. -/
def writeEncryptData : EncryptDataS → Bytes
  | .Plain s => writeU32 0 ++ writeBytes s
  | .Vector v => writeU32 1 ++ writeBytes v

/-- Bincode decoding of an `EncryptData` prefix. -/
def readEncryptData (l : Bytes) : Option (EncryptDataS × Bytes) :=
  match readU32 l with
  | some (0, l1) => (readBytes l1).map (fun p => (.Plain p.1, p.2))
  | some (1, l1) => (readBytes l1).map (fun p => (.Vector p.1, p.2))
  | _ => none

/-- Bincode encoding of `TransactionPrimitive`. -/
def writeTransactionPrimitive : TransactionPrimitiveS → Bytes
  | .Plain td => writeU32 0 ++ writeTransactionData td
  | .Encrypt e => writeU32 1 ++ writeEncryptData e

/-- Bincode decoding of a `TransactionPrimitive` prefix. -/
def readTransactionPrimitive (l : Bytes) : Option (TransactionPrimitiveS × Bytes) :=
  match readU32 l with
  | some (0, l1) => (readTransactionData l1).map (fun p => (.Plain p.1, p.2))
  | some (1, l1) => (readEncryptData l1).map (fun p => (.Encrypt p.1, p.2))
  | _ => none

/-- Bincode encoding of `EncryptedTransaction`. -/
def writeEncryptedTransaction (e : EncryptedTransactionS) : Bytes :=
  writeBytes e.id ++ writeTransactionPrimitive e.sender_data ++
    writeTransactionPrimitive e.receiver_data ++ writeU64 e.fee ++ writeU64 e.size ++
    writeU64 e.timestamp ++ writeBytes e.narration ++ writeBytes e.status

/-- Bincode decoding of an `EncryptedTransaction` prefix. -/
def readEncryptedTransaction (l : Bytes) : Option (EncryptedTransactionS × Bytes) :=
  match readBytes l with
  | none => none
  | some (id, l1) =>
      match readTransactionPrimitive l1 with
      | none => none
      | some (sd, l2) =>
          match readTransactionPrimitive l2 with
          | none => none
          | some (rd, l3) =>
              match readU64 l3 with
              | none => none
              | some (fee, l4) =>
                  match readU64 l4 with
                  | none => none
                  | some (size, l5) =>
                      match readU64 l5 with
                      | none => none
                      | some (ts, l6) =>
                          match readBytes l6 with
                          | none => none
                          | some (narr, l7) =>
                              match readBytes l7 with
                              | none => none
                              | some (st, l8) =>
                                  some (⟨id, sd, rd, fee, size, ts, narr, st⟩, l8)

/-- Well-formedness of a `TransactionData`: field sizes fit the
bincode length and `u64` widths. -/
def TransactionDataS.WF (td : TransactionDataS) : Prop :=
  td.sender.length < 2 ^ 64 ∧ td.receiver.length < 2 ^ 64 ∧ td.amount < 2 ^ 64

/-- Well-formedness of a `TransactionPrimitive`. -/
def TransactionPrimitiveS.WF : TransactionPrimitiveS → Prop
  | .Plain td => td.WF
  | .Encrypt (.Plain s) => s.length < 2 ^ 64
  | .Encrypt (.Vector v) => v.length < 2 ^ 64

/-- Well-formedness of an `EncryptedTransaction`. -/
def EncryptedTransactionS.WF (e : EncryptedTransactionS) : Prop :=
  e.id.length < 2 ^ 64 ∧ e.sender_data.WF ∧ e.receiver_data.WF ∧
    e.fee < 2 ^ 64 ∧ e.size < 2 ^ 64 ∧ e.timestamp < 2 ^ 64 ∧
    e.narration.length < 2 ^ 64 ∧ e.status.length < 2 ^ 64

namespace Account

/-- `Account::get_account_index`: look up the bincode-serialized
address in the `index` family and deserialize the stored public-key
string. -/
def get_account_index (s : Store) (address : Bytes) : Except Bytes Bytes :=
  match Storage.get s (ascii "index") (writeBytes address) with
  | .error e => .error e
  | .ok v =>
      match readBytes v with
      | none => .error (ascii "bincode deserialize error")
      | some (pk, _) => .ok pk

end Account

namespace Transaction

/-- `Transaction::init`.  The id is computed exactly as in the
source: the blake3 hash of the big-endian 8-byte timestamp is first
rendered as 64 lowercase hex characters by `to_hex`, and that ASCII
string is then hex-encoded a second time by `hex::encode`.  The
`size` and `fee` fields are parameters standing for
`calculate_size_in_byte` and `calculate_dynamic_fee`, which use
`mem::size_of_val`, `f64` arithmetic and a random congestion factor —
memory layout, floating point and randomness are outside the
embedding and no claim depends on their values.  `blake3` is the
external hash, passed as a parameter. -/
def init (blake3 : Bytes → Bytes) (timestamp : Nat) (size fee : Nat)
    (sender receiver : Bytes) (amount : Nat) (narration : Bytes) : TransactionS :=
  let id1 := hexEncodeBytes (blake3 (natToBeBytes 8 timestamp))
  let id := hexEncodeBytes id1
  .Plain ⟨id, sender, receiver, amount, fee, size, timestamp, narration,
    ascii "Pending", none⟩

/-- `Transaction::process_transaction`.  `freshKey` is the random
32-byte key drawn inside `Crypto::encrypt` for the sender view;
`nonceR` and `nonceS` are the random nonces of the receiver- and
sender-view encryptions. -/
def process_transaction (s : Store) (freshKey nonceR nonceS : Bytes)
    (data : PlainTransactionS) : Except Bytes (TransactionS × Store) :=
  let key := writeBytes data.id
  let tx_data : TransactionDataS := ⟨data.sender, data.receiver, data.amount⟩
  match Account.get_account_index s data.sender with
  | .error e => .error e
  | .ok receiver_key =>
      match Crypto.encrypt freshKey nonceR (writeTransactionData tx_data)
          (some receiver_key) with
      | .error e => .error (ascii "Encryption failed: " ++ e)
      | .ok receiverC =>
          let receiver_data := TransactionPrimitiveS.Encrypt (.Vector receiverC.data)
          match Crypto.encrypt freshKey nonceS (writeTransactionData tx_data) none with
          | .error e => .error (ascii "Encryption failed: " ++ e)
          | .ok senderC =>
              let tx_key := senderC.key
              let sender_data := TransactionPrimitiveS.Encrypt (.Vector senderC.data)
              let tx_serialize : EncryptedTransactionS :=
                ⟨data.id, sender_data, receiver_data, data.fee, data.size,
                  data.timestamp, data.narration, data.status⟩
              match Storage.put s (ascii "transactions") key
                  (writeEncryptedTransaction tx_serialize) true with
              | (s1, .ok _) => .ok (.Plain { data with tx_key := tx_key }, s1)
              | (_, .error e) => .error e

/-- `Transaction::get_transaction`: fetch the encrypted record and
decrypt BOTH the sender view and the receiver view under the one
provided `tx_key` (empty string when absent), propagating either
failure. -/
def get_transaction (s : Store) (tx_id : Bytes) (tx_key : Option Bytes) :
    Except Bytes TransactionS :=
  match Storage.get s (ascii "transactions") (writeBytes tx_id) with
  | .error e => .error e
  | .ok value =>
      match readEncryptedTransaction value with
      | none => .error (ascii "bincode deserialize error")
      | some (encrypted_tx, _) =>
          match encrypted_tx.sender_data with
          | .Encrypt (.Vector encrypted_sender) =>
              (match Crypto.decrypt encrypted_sender (tx_key.getD []) with
               | .error e => .error (ascii "Sender decryption failed: " ++ e)
               | .ok decrypted_sender =>
                   match readTransactionData decrypted_sender.data with
                   | none => .error (ascii "bincode deserialize error")
                   | some (sender_td, _) =>
                       match encrypted_tx.receiver_data with
                       | .Encrypt (.Vector encrypted_receiver) =>
                           (match Crypto.decrypt encrypted_receiver (tx_key.getD []) with
                            | .error e =>
                                .error (ascii "Receiver decryption failed: " ++ e)
                            | .ok decrypted_receiver =>
                                match readTransactionData decrypted_receiver.data with
                                | none => .error (ascii "bincode deserialize error")
                                | some (receiver_td, _) =>
                                    .ok (.Encrypted ⟨encrypted_tx.id,
                                      .Plain sender_td, .Plain receiver_td,
                                      encrypted_tx.fee, encrypted_tx.size,
                                      encrypted_tx.timestamp, encrypted_tx.narration,
                                      encrypted_tx.status⟩))
                       | _ => .error (ascii "Invalid receiver data format"))
          | _ => .error (ascii "Invalid sender data format")

/-- `Transaction::get_transaction_details`: a byte-for-byte copy of
`get_transaction` in the source, translated independently. -/
def get_transaction_details (s : Store) (tx_id : Bytes) (tx_key : Option Bytes) :
    Except Bytes TransactionS :=
  match Storage.get s (ascii "transactions") (writeBytes tx_id) with
  | .error e => .error e
  | .ok value =>
      match readEncryptedTransaction value with
      | none => .error (ascii "bincode deserialize error")
      | some (encrypted_tx, _) =>
          match encrypted_tx.sender_data with
          | .Encrypt (.Vector encrypted_sender) =>
              (match Crypto.decrypt encrypted_sender (tx_key.getD []) with
               | .error e => .error (ascii "Sender decryption failed: " ++ e)
               | .ok decrypted_sender =>
                   match readTransactionData decrypted_sender.data with
                   | none => .error (ascii "bincode deserialize error")
                   | some (sender_td, _) =>
                       match encrypted_tx.receiver_data with
                       | .Encrypt (.Vector encrypted_receiver) =>
                           (match Crypto.decrypt encrypted_receiver (tx_key.getD []) with
                            | .error e =>
                                .error (ascii "Receiver decryption failed: " ++ e)
                            | .ok decrypted_receiver =>
                                match readTransactionData decrypted_receiver.data with
                                | none => .error (ascii "bincode deserialize error")
                                | some (receiver_td, _) =>
                                    .ok (.Encrypted ⟨encrypted_tx.id,
                                      .Plain sender_td, .Plain receiver_td,
                                      encrypted_tx.fee, encrypted_tx.size,
                                      encrypted_tx.timestamp, encrypted_tx.narration,
                                      encrypted_tx.status⟩))
                       | _ => .error (ascii "Invalid receiver data format"))
          | _ => .error (ascii "Invalid sender data format")

end Transaction

/-- Id projection of a `Transaction`. -/
def TransactionS.idOf : TransactionS → Bytes
  | .Plain t => t.id
  | .Encrypted e => e.id

/-- A concrete stand-in for the external blake3 hash, used only to
instantiate hash-generic theorems at a computable point. -/
def dummyBlake3 : Bytes → Bytes :=
  fun l => (List.range 32).map (fun i => (i + l.foldl (· + ·) 0) % 256)

/-! ## Keypair (src/vault/key.rs) -/

/-- The order of the ristretto255 prime-order group. -/
def ristrettoOrder : Nat := 2 ^ 252 + 27742317777372353535851937790883648493

/-- `Scalar::from_bytes_mod_order` on a 32-byte little-endian array. -/
def scalarFromBytesModOrder (bs : Bytes) : Nat := leNat bs % ristrettoOrder

/-- Outcome of a Rust call that can return, error, or panic. -/
inductive RustResult (α : Type)
  | ok (a : α)
  | err (e : Bytes)
  | panicked
deriving DecidableEq

/-- `KeyPair::verify` (the `public_from_private` operation): hex
decode, then `array_ref![bytes, 0, 32]` — which panics when fewer
than 32 bytes were decoded and silently uses only the first 32 bytes
otherwise — then scalar reduction and basepoint multiplication.  The
ristretto basepoint multiplication and point compression live in the
external curve25519-dalek crate and are passed as the parameter
`ristrettoMulBase` mapping the reduced scalar to the 32 compressed
point bytes. -/
def KeyPair.verify (ristrettoMulBase : Nat → Bytes) (private_key : Bytes) :
    RustResult Bytes :=
  match hexDecodeAscii private_key with
  | none => .err (ascii "Invalid private key encoding")
  | some bs =>
      if bs.length < 32 then .panicked
      else .ok (hexEncodeBytes (ristrettoMulBase (scalarFromBytesModOrder (bs.take 32))))

/-- A concrete stand-in for the external ristretto basepoint
multiplication, used only to instantiate curve-generic theorems at a
computable point. -/
def dummyRistretto : Nat → Bytes := fun n => natToLeBytes 32 n

/-- Well-formedness of a `PlainTransaction`: field sizes fit the
bincode length and `u64` widths, with room for the cipher envelope
around the serialized transfer data. -/
def PlainTransactionS.WF (t : PlainTransactionS) : Prop :=
  t.id.length < 2 ^ 64 ∧ t.sender.length < 2 ^ 60 ∧ t.receiver.length < 2 ^ 60 ∧
    t.amount < 2 ^ 64 ∧ t.fee < 2 ^ 64 ∧ t.size < 2 ^ 64 ∧ t.timestamp < 2 ^ 64 ∧
    t.narration.length < 2 ^ 64 ∧ t.status.length < 2 ^ 64

/-- Concrete store for instantiating the transaction claims: the
index family maps the sender address "AS" to a 64-hex-character
public key string. -/
def C1store : Store := fun f =>
  if f = ascii "index" then
    [(writeBytes (ascii "AS"), writeBytes (hexEncodeBytes (List.replicate 32 0)))]
  else []

/-- Concrete plain transaction for instantiating the transaction
claims. -/
def C1data : PlainTransactionS :=
  ⟨ascii "01", ascii "AS", ascii "AR", 100, 3, 7, 5, ascii "t1", ascii "Pending", none⟩

/-- Concrete fresh sender-view key: differs from the stored receiver
key in exactly one bit. -/
def C1freshKey : Bytes := 1 :: List.replicate 31 0

/-- Concrete receiver-view nonce. -/
def C1nonceR : Bytes := List.replicate 12 0

/-- Concrete sender-view nonce. -/
def C1nonceS : Bytes := List.replicate 12 2

/-! ## Base58 (the `bs58` crate)

The bs58 alphabet encoding: leading zero bytes become leading '1'
characters, and the remaining bytes are re-based from 256 to 58 as
one big-endian number. -/

/-- The bs58 Bitcoin alphabet as ASCII byte values. -/
def base58Alphabet : Bytes :=
  ascii "123456789ABCDEFGHJKLMNPQRSTUVWXYZabcdefghijkmnopqrstuvwxyz"

/-- Character of a base58 digit. -/
def base58CharOf (d : Nat) : Nat := base58Alphabet.getD d 0

/-- Position of a character in the alphabet. -/
def idxOf : Bytes → Nat → Option Nat
  | [], _ => none
  | a :: t, c => if a = c then some 0 else (idxOf t c).map (· + 1)

/-- Digit value of a base58 character. -/
def base58CharVal (c : Nat) : Option Nat := idxOf base58Alphabet c

/-- Number of leading zero entries of a list. -/
def countLeadingZeros : List Nat → Nat
  | [] => 0
  | b :: t => if b = 0 then countLeadingZeros t + 1 else 0

/-- Big-endian byte interpretation. -/
def beNat (bs : Bytes) : Nat := Nat.ofDigits 256 bs.reverse

/-- `bs58::encode`. -/
def base58encode (bs : Bytes) : Bytes :=
  List.replicate (countLeadingZeros bs) 49 ++
    ((Nat.digits 58 (beNat bs)).reverse.map base58CharOf)

/-- Digit values of a character list; `none` if any character is not
in the alphabet. -/
def allVals : Bytes → Option (List Nat)
  | [] => some []
  | c :: t =>
      match base58CharVal c, allVals t with
      | some d, some r => some (d :: r)
      | _, _ => none

/-- `bs58::decode`. -/
def base58decode (chars : Bytes) : Option Bytes :=
  match allVals chars with
  | none => none
  | some vals =>
      some (List.replicate (countLeadingZeros vals) 0 ++
        (Nat.digits 256 (Nat.ofDigits 58 vals.reverse)).reverse)

/-! ## Wallet (src/account/wallet.rs) -/

namespace Wallet

/-- `Wallet::calculate_checksum`: first 4 bytes of the blake3 hash. -/
def calculate_checksum (blake3 : Bytes → Bytes) (data : Bytes) : Bytes :=
  (blake3 data).take 4

/-- `Wallet::generate_address`.  The compressed stealth point
`compress(one_time_public_key + public_key)` is computed by the
external curve25519-dalek crate; it is the 32-byte parameter
`stealthCompressed`, and quantifying over it covers every choice of
the fresh one-time keypair.  The repository code appends the 4-byte
checksum and base58-encodes. -/
def generate_address (blake3 : Bytes → Bytes) (stealthCompressed : Bytes) : Bytes :=
  let address_bytes := stealthCompressed ++ calculate_checksum blake3 stealthCompressed
  base58encode address_bytes

/-- `Wallet::verify_address`: base58-decode, split off the 4-byte
tail, recompute the checksum and compare; note a checksum mismatch is
`Ok(false)`, not an error. -/
def verify_address (blake3 : Bytes → Bytes) (address : Bytes) : Except Bytes Bool :=
  match base58decode address with
  | none => .error (ascii "Invalid Base58 encoding")
  | some decoded =>
      if decoded.length < 4 then .error (ascii "Invalid address length")
      else
        .ok (decoded.drop (decoded.length - 4) =
          calculate_checksum blake3 (decoded.take (decoded.length - 4)))

end Wallet

/-! ## Account ledger (src/account/account.rs) -/

/-- `BalanceType`; the `Decimal` payload is the `f64` bit pattern. -/
inductive BalanceTypeS
  | Binary (b : Bytes)
  | Text (t : Bytes)
  | Decimal (d : Nat)
deriving DecidableEq

/-- `Account`. -/
structure AccountS where
  address : Bytes
  balance : BalanceTypeS
  timestamp : Nat
deriving DecidableEq

/-- Bincode encoding of `BalanceType`. -/
def writeBalanceType : BalanceTypeS → Bytes
  | .Binary b => writeU32 0 ++ writeBytes b
  | .Text t => writeU32 1 ++ writeBytes t
  | .Decimal d => writeU32 2 ++ writeU64 d

/-- Bincode decoding of a `BalanceType` prefix. -/
def readBalanceType (l : Bytes) : Option (BalanceTypeS × Bytes) :=
  match readU32 l with
  | some (0, l1) => (readBytes l1).map (fun p => (.Binary p.1, p.2))
  | some (1, l1) => (readBytes l1).map (fun p => (.Text p.1, p.2))
  | some (2, l1) => (readU64 l1).map (fun p => (.Decimal p.1, p.2))
  | _ => none

/-- Bincode encoding of `Account`. -/
def writeAccount (a : AccountS) : Bytes :=
  writeBytes a.address ++ writeBalanceType a.balance ++ writeU64 a.timestamp

/-- Bincode decoding of an `Account` prefix. -/
def readAccount (l : Bytes) : Option (AccountS × Bytes) :=
  match readBytes l with
  | none => none
  | some (addr, l1) =>
      match readBalanceType l1 with
      | none => none
      | some (bal, l2) =>
          match readU64 l2 with
          | none => none
          | some (ts, l3) => some (⟨addr, bal, ts⟩, l3)

namespace Account

/-- `Account::get_account`: resolve the address through the index
family first, then check `verify_address(...).is_ok()` — which is
true even when the checksum comparison returned `Ok(false)` — and
return the account with the balance redacted. -/
def get_account (blake3 : Bytes → Bytes) (s : Store) (address : Bytes) :
    Except Bytes AccountS :=
  match Storage.get s (ascii "index") (writeBytes address) with
  | .error e => .error e
  | .ok account_key_raw =>
      match readBytes account_key_raw with
      | none => .error (ascii "bincode deserialize error")
      | some (account_key, _) =>
          if (Wallet.verify_address blake3 address).isOk then
            match Storage.get s (ascii "accounts") (writeBytes account_key) with
            | .error e => .error e
            | .ok araw =>
                match readAccount araw with
                | none => .error (ascii "bincode deserialize error")
                | some (account, _) =>
                    .ok ⟨account.address,
                      .Text (ascii "Encrypted provide private_key to decrypt"),
                      account.timestamp⟩
          else .error (ascii "Not a valid wallet address")

/-- Redaction loop of `Account::get_accounts`. -/
def redactAccounts : List (Bytes × Bytes) → Except Bytes (List AccountS)
  | [] => .ok []
  | (_, value) :: t =>
      match readAccount value with
      | none => .error (ascii "bincode deserialize error")
      | some (data, _) =>
          match redactAccounts t with
          | .error e => .error e
          | .ok rest => .ok (⟨data.address,
              .Text (ascii "Encrypted provide private_key to decrypt"),
              data.timestamp⟩ :: rest)

/-- `Account::get_accounts`: page/limit listing; any page value of 1
or less maps to offset 0. -/
def get_accounts (s : Store) (page limit : Nat) : Except Bytes (List AccountS) :=
  let start := if page > 1 then (page - 1) * limit else 0
  match Storage.batch_get s (ascii "accounts") start limit with
  | .error e => .error e
  | .ok results => redactAccounts results

end Account

/-- Concrete bad-checksum address for claim C3: 36 '1' characters,
which base58-decode to 36 zero bytes whose trailing checksum
`[0,0,0,0]` differs from the recomputed `[0,1,2,3]`. -/
def C3addr : Bytes := List.replicate 36 49

/-- Concrete public-key hex string under which the C3 account is
stored. -/
def C3pk : Bytes := hexEncodeBytes (List.replicate 32 0)

/-- Concrete store registering the bad-checksum address in the index
family and the account record in the accounts family. -/
def C3store : Store := fun f =>
  if f = ascii "index" then [(writeBytes C3addr, writeBytes C3pk)]
  else if f = ascii "accounts" then
    [(writeBytes C3pk, writeAccount ⟨C3addr, .Binary [9, 9], 5⟩)]
  else []

/-! ### Theorems -/

theorem natToLeBytes_length (w n : Nat) : (natToLeBytes w n).length = w := by
  induction w generalizing n with
  | zero => rfl
  | succ w ih => simp [natToLeBytes, ih]

theorem leNat_natToLeBytes (w n : Nat) : leNat (natToLeBytes w n) = n % 256 ^ w := by
  induction w generalizing n with
  | zero => simp [natToLeBytes, leNat, Nat.mod_one]
  | succ w ih =>
      simp only [natToLeBytes, leNat, ih]
      rw [pow_succ', Nat.mod_mul]

theorem natToLeBytes_lt (w n : Nat) : ∀ b ∈ natToLeBytes w n, b < 256 := by
  induction w generalizing n with
  | zero => intro b hb; simp [natToLeBytes] at hb
  | succ w ih =>
      intro b hb
      simp only [natToLeBytes, List.mem_cons] at hb
      rcases hb with h | h
      · omega
      · exact ih _ _ h

theorem natToLeBytes_inj {w m n : Nat} (hm : m < 256 ^ w) (hn : n < 256 ^ w)
    (h : natToLeBytes w m = natToLeBytes w n) : m = n := by
  have e1 := leNat_natToLeBytes w m
  have e2 := leNat_natToLeBytes w n
  have e3 : leNat (natToLeBytes w m) = leNat (natToLeBytes w n) := by rw [h]
  rw [e1, e2, Nat.mod_eq_of_lt hm, Nat.mod_eq_of_lt hn] at e3
  exact e3

theorem hexEncodeBytes_length (bs : Bytes) :
    (hexEncodeBytes bs).length = 2 * bs.length := by
  induction bs with
  | nil => rfl
  | cons b t ih => simp [hexEncodeBytes, ih]; ring

theorem hexDigitVal_hexCharOfDigit {d : Nat} (h : d < 16) :
    hexDigitVal (hexCharOfDigit d) = some d := by
  interval_cases d <;> rfl

theorem hexDecode_hexEncode {bs : Bytes} (h : ∀ b ∈ bs, b < 256) :
    hexDecodeAscii (hexEncodeBytes bs) = some bs := by
  induction bs with
  | nil => rfl
  | cons b t ih =>
      have hb : b < 256 := h b (List.mem_cons_self b t)
      have ht : ∀ x ∈ t, x < 256 := fun x hx => h x (List.mem_cons_of_mem b hx)
      have h1 : b / 16 < 16 := by omega
      have h2 : b % 16 < 16 := by omega
      have hrec := ih ht
      simp only [hexEncodeBytes, hexDecodeAscii,
        hexDigitVal_hexCharOfDigit h1, hexDigitVal_hexCharOfDigit h2, hrec]
      have : 16 * (b / 16) + b % 16 = b := by omega
      rw [this]

theorem take_append_of_length {α : Type} (l r : List α) : (l ++ r).take l.length = l := by
  simp

theorem decodeI64_encodeI64 {i : Int} (h1 : -2 ^ 63 ≤ i) (h2 : i < 2 ^ 63) :
    decodeI64 (encodeI64 i) = some i := by
  have hlen : (encodeI64 i).length = 8 := natToLeBytes_length _ _
  have hmod : (i % (2 ^ 64 : Int)).toNat < 256 ^ 8 := by
    have h0 : (0 : Int) ≤ i % (2 ^ 64 : Int) := Int.emod_nonneg i (by norm_num)
    have h1' : i % (2 ^ 64 : Int) < 2 ^ 64 := Int.emod_lt_of_pos i (by norm_num)
    omega
  have htake : (encodeI64 i).take 8 = encodeI64 i :=
    List.take_of_length_le (by rw [hlen])
  have hle : leNat ((encodeI64 i).take 8) = (i % (2 ^ 64 : Int)).toNat := by
    rw [htake]
    unfold encodeI64
    rw [leNat_natToLeBytes]
    exact Nat.mod_eq_of_lt hmod
  have hueq : ((i % (2 ^ 64 : Int)).toNat : Int) = i % (2 ^ 64 : Int) := by
    apply Int.toNat_of_nonneg
    exact Int.emod_nonneg i (by norm_num)
  have hmodval : i % (2 ^ 64 : Int) = if 0 ≤ i then i else i + 2 ^ 64 := by
    split
    · apply Int.emod_eq_of_lt (by omega) (by omega)
    · have : i % (2 ^ 64 : Int) = (i + 2 ^ 64) % (2 ^ 64 : Int) := by
        omega
      rw [this]
      apply Int.emod_eq_of_lt (by omega) (by omega)
  simp only [decodeI64, hlen]
  rw [if_neg (by omega), hle]
  refine congrArg some ?_
  rcases le_or_lt 0 i with hpos | hneg
  · rw [if_pos hpos] at hmodval
    rw [hmodval] at hueq ⊢
    split <;> omega
  · rw [if_neg (by omega)] at hmodval
    rw [hmodval] at hueq ⊢
    split <;> omega

theorem Storage.lookupEntry_insertEntry_self (l : List (Bytes × Bytes)) (k v : Bytes) :
    lookupEntry (insertEntry l k v) k = some v := by
  induction l with
  | nil => simp [insertEntry, lookupEntry]
  | cons h t ih =>
      obtain ⟨k', v'⟩ := h
      simp only [insertEntry]
      split
      · simp [lookupEntry]
      · split
        · simp [lookupEntry]
        · simp only [lookupEntry]
          rw [if_neg (by assumption), ih]

theorem Storage.lookupEntry_insertEntry_ne (l : List (Bytes × Bytes)) (k v k2 : Bytes)
    (hne : k2 ≠ k) : lookupEntry (insertEntry l k v) k2 = lookupEntry l k2 := by
  induction l with
  | nil => simp [insertEntry, lookupEntry, hne]
  | cons h t ih =>
      obtain ⟨k', v'⟩ := h
      simp only [insertEntry]
      split
      · simp only [lookupEntry]
        rw [if_neg hne]
      · split
        · simp only [lookupEntry]
          rename_i hk
          rw [if_neg hne, if_neg (by rw [← hk]; exact hne)]
        · simp only [lookupEntry]
          split
          · rfl
          · exact ih

theorem Storage.getRaw_writeRaw_self (s : Store) (cf k v : Bytes) :
    getRaw (writeRaw s cf k v) cf k = some v := by
  simp [getRaw, writeRaw, lookupEntry_insertEntry_self]

theorem Storage.getRaw_writeRaw_ne_cf (s : Store) (cf k v cf2 k2 : Bytes) (h : cf2 ≠ cf) :
    getRaw (writeRaw s cf k v) cf2 k2 = getRaw s cf2 k2 := by
  simp [getRaw, writeRaw, h]

theorem Storage.getRaw_writeRaw_ne_key (s : Store) (cf k v cf2 k2 : Bytes) (h : k2 ≠ k) :
    getRaw (writeRaw s cf k v) cf2 k2 = getRaw s cf2 k2 := by
  unfold getRaw writeRaw
  split
  · rename_i heq
    rw [heq, lookupEntry_insertEntry_ne _ _ _ _ h]
  · rfl

theorem Storage.put_err_of_exists (s : Store) (cf key v : Bytes) (b : Bool)
    (hex : (b && existsKey s cf key) = true) :
    put s cf key v b = (s, .error (ascii "Record exists! Mutating value is not allowed.")) := by
  unfold put
  rw [if_pos hex]

theorem Storage.put_ok_of_no_counter (s : Store) (cf key v : Bytes) (b : Bool)
    (hex : (b && existsKey s cf key) = false)
    (hcnt : getRaw (writeRaw s cf key v) (ascii "analytics") cf = none) :
    put s cf key v b =
      (writeRaw (writeRaw s cf key v) (ascii "analytics") cf (encodeI64 1), .ok ()) := by
  unfold put
  rw [if_neg (by simp [hex])]
  simp only [update_analytics, hcnt]

theorem Storage.put_ok_of_counter (s : Store) (cf key v : Bytes) (b : Bool) (k : Int)
    (hex : (b && existsKey s cf key) = false)
    (hcnt : getRaw (writeRaw s cf key v) (ascii "analytics") cf = some (encodeI64 k))
    (hdec : decodeI64 (encodeI64 k) = some k) :
    put s cf key v b =
      (writeRaw (writeRaw s cf key v) (ascii "analytics") cf (encodeI64 (k + 1)), .ok ()) := by
  unfold put
  rw [if_neg (by simp [hex])]
  simp only [update_analytics, hcnt, hdec]

theorem Storage.putMany_cons_ok (s W : Store) (cf k v : Bytes) (b : Bool)
    (t : List (Bytes × Bytes × Bool))
    (h : put s cf k v b = (W, .ok ())) :
    putMany s cf ((k, v, b) :: t) = putMany W cf t := by
  simp only [putMany, h]

theorem Storage.putMany_analytics_step (cf : Bytes) (ops : List (Bytes × Bytes × Bool)) :
    ∀ (s s' : Store) (k : Nat),
      getRaw s (ascii "analytics") cf = some (encodeI64 (k : Int)) →
      k + ops.length < 2 ^ 63 →
      (cf = ascii "analytics" → ∀ op ∈ ops, op.1 ≠ cf) →
      putMany s cf ops = (s', .ok ()) →
      getRaw s' (ascii "analytics") cf = some (encodeI64 ((k + ops.length : Nat) : Int)) := by
  induction ops with
  | nil =>
      intro s s' k hcnt _ _ hrun
      simp only [putMany, Prod.mk.injEq] at hrun
      rw [← hrun.1]
      simpa using hcnt
  | cons op t ih =>
      intro s s' k hcnt hk hkeys hrun
      obtain ⟨key, v, b⟩ := op
      have hkbound : k < 2 ^ 63 := by
        simp only [List.length_cons] at hk
        omega
      by_cases hex : (b && existsKey s cf key) = true
      · rw [putMany, put_err_of_exists s cf key v b hex] at hrun
        simp at hrun
      · have hget1 : getRaw (writeRaw s cf key v) (ascii "analytics") cf =
            some (encodeI64 (k : Int)) := by
          by_cases hcf : cf = ascii "analytics"
          · have hkn : key ≠ cf := hkeys hcf (key, v, b) (List.mem_cons_self _ _)
            rw [← hcf, getRaw_writeRaw_ne_key s cf key v cf cf (fun hc => hkn hc.symm)]
            rw [hcf] at hcnt ⊢
            exact hcnt
          · rw [getRaw_writeRaw_ne_cf s cf key v (ascii "analytics") cf
              (fun hc => hcf hc.symm)]
            exact hcnt
        have hdec : decodeI64 (encodeI64 (k : Int)) = some (k : Int) := by
          apply decodeI64_encodeI64 <;> omega
        have hput := put_ok_of_counter s cf key v b (k : Int)
          (by simpa using hex) hget1 hdec
        rw [putMany_cons_ok _ _ _ _ _ _ _ hput] at hrun
        have hcast : (k : Int) + 1 = ((k + 1 : Nat) : Int) := by push_cast; ring
        rw [hcast] at hput
        have hnext : getRaw (writeRaw (writeRaw s cf key v) (ascii "analytics") cf
            (encodeI64 ((k + 1 : Nat) : Int))) (ascii "analytics") cf =
            some (encodeI64 ((k + 1 : Nat) : Int)) := getRaw_writeRaw_self _ _ _ _
        rw [hcast] at hrun
        have hres := ih _ s' (k + 1) hnext
          (by simp only [List.length_cons] at hk; omega)
          (fun hcf op hop => hkeys hcf op (List.mem_cons_of_mem _ hop)) hrun
        rw [hres]
        congr 2
        simp only [List.length_cons]
        omega

/-- Claim C6 (amended).  Starting from a store whose analytics family
has no counter entry for family `cf`, after `N ≥ 1` successful single
`put` operations on `cf` with pairwise distinct keys and no other
interleaved writes, `get_analytics cf` returns `N`: the counter is
written as 1 on the first successful put and incremented by exactly 1
on each subsequent one.  Amendments forced by the counterexample: a
put key may not equal the counter key itself when `cf` is the
analytics family (the put and the counter then share one slot), and
`N` is bounded by the `i64` counter range. -/
theorem C6_analytics_counter (cf : Bytes) (ops : List (Bytes × Bytes × Bool))
    (s s' : Store)
    (h0 : Storage.getRaw s (ascii "analytics") cf = none)
    (hkeys : cf = ascii "analytics" → ∀ op ∈ ops, op.1 ≠ cf)
    (hdistinct : (ops.map (fun op => op.1)).Pairwise (· ≠ ·))
    (hN : ops.length < 2 ^ 63)
    (hpos : 0 < ops.length)
    (hrun : Storage.putMany s cf ops = (s', .ok ())) :
    Storage.get_analytics s' cf = .ok (ops.length : Int) := by
  obtain ⟨⟨key, v, b⟩, t, rfl⟩ : ∃ op t, ops = op :: t := by
    cases ops with
    | nil => simp at hpos
    | cons op t => exact ⟨op, t, rfl⟩
  by_cases hex : (b && Storage.existsKey s cf key) = true
  · rw [Storage.putMany, Storage.put_err_of_exists s cf key v b hex] at hrun
    simp at hrun
  · have hget1 : Storage.getRaw (Storage.writeRaw s cf key v) (ascii "analytics") cf =
        none := by
      by_cases hcf : cf = ascii "analytics"
      · have hkn : key ≠ cf := hkeys hcf (key, v, b) (List.mem_cons_self _ _)
        rw [← hcf, Storage.getRaw_writeRaw_ne_key s cf key v cf cf (fun hc => hkn hc.symm)]
        rw [hcf] at h0 ⊢
        exact h0
      · rw [Storage.getRaw_writeRaw_ne_cf s cf key v (ascii "analytics") cf
          (fun hc => hcf hc.symm)]
        exact h0
    have hput := Storage.put_ok_of_no_counter s cf key v b (by simpa using hex) hget1
    rw [Storage.putMany_cons_ok _ _ _ _ _ _ _ hput] at hrun
    have hone : (1 : Int) = ((1 : Nat) : Int) := by norm_num
    rw [hone] at hrun
    have hnext : Storage.getRaw (Storage.writeRaw (Storage.writeRaw s cf key v)
        (ascii "analytics") cf (encodeI64 ((1 : Nat) : Int))) (ascii "analytics") cf =
        some (encodeI64 ((1 : Nat) : Int)) := Storage.getRaw_writeRaw_self _ _ _ _
    have hfin := Storage.putMany_analytics_step cf t _ s' 1 hnext
      (by simp only [List.length_cons] at hN; omega)
      (fun hcf op hop => hkeys hcf op (List.mem_cons_of_mem _ hop)) hrun
    have hb1 : (-2 ^ 63 : Int) ≤ ((1 + t.length : Nat) : Int) := by
      have : (0 : Int) ≤ ((1 + t.length : Nat) : Int) := Int.natCast_nonneg _
      omega
    have hb2 : ((1 + t.length : Nat) : Int) < 2 ^ 63 := by
      simp only [List.length_cons] at hN
      push_cast
      omega
    simp only [Storage.get_analytics, hfin, decodeI64_encodeI64 hb1 hb2,
      List.length_cons]
    congr 1
    push_cast
    omega

/-- Claim C6, counterexample to the claim as stated: taking `F` to be
the analytics family itself and a put key equal to the family name,
one successful put leaves the counter at 42 (the put's own value
incremented), not 1. -/
theorem C6_counterexample :
    (Storage.putMany Storage.emptyStore (ascii "analytics")
        [(ascii "analytics", encodeI64 41, true)]).2 = .ok () ∧
    Storage.getRaw Storage.emptyStore (ascii "analytics") (ascii "analytics") = none ∧
    Storage.get_analytics (Storage.putMany Storage.emptyStore (ascii "analytics")
        [(ascii "analytics", encodeI64 41, true)]).1 (ascii "analytics") = .ok 42 ∧
    (42 : Int) ≠ 1 := by
  refine ⟨by decide, by decide, by decide, by decide⟩

/-- Claim C6, witness: two puts with distinct keys on the `accounts`
family drive the counter to 2. -/
theorem C6_witness :
    Storage.get_analytics (Storage.putMany Storage.emptyStore (ascii "accounts")
      [([1], [9], true), ([2], [9], true)]).1 (ascii "accounts") = .ok 2 := by
  have h := C6_analytics_counter (ascii "accounts") [([1], [9], true), ([2], [9], true)]
    Storage.emptyStore
    (Storage.putMany Storage.emptyStore (ascii "accounts")
      [([1], [9], true), ([2], [9], true)]).1
    (by decide) (by intro hc; exact absurd hc (by decide)) (by decide) (by decide) (by decide)
    (Prod.ext_iff.mpr ⟨rfl, by decide⟩)
  simpa using h

/-- A successful `put` leaves the written value readable under its
key, as long as the analytics increment does not share that slot. -/
theorem Storage.put_ok_stored (s s1 : Store) (cf K v : Bytes) (b : Bool)
    (hcf : ¬(cf = ascii "analytics" ∧ K = ascii "analytics"))
    (h1 : Storage.put s cf K v b = (s1, .ok ())) :
    Storage.getRaw s1 cf K = some v := by
  by_cases hex : (b && Storage.existsKey s cf K) = true
  · rw [Storage.put_err_of_exists s cf K v b hex] at h1
    simp at h1
  · have hbase : Storage.getRaw (Storage.writeRaw s cf K v) cf K =
        some v := Storage.getRaw_writeRaw_self _ _ _ _
    cases hcnt : Storage.getRaw (Storage.writeRaw s cf K v) (ascii "analytics") cf with
    | none =>
        have hput := Storage.put_ok_of_no_counter s cf K v b
          (by simpa using hex) hcnt
        rw [hput] at h1
        obtain ⟨rfl, -⟩ := Prod.mk.injEq .. ▸ h1
        by_cases hcf2 : cf = ascii "analytics"
        · have hK : K ≠ cf := by
            intro hc
            exact hcf ⟨hcf2, hc.trans hcf2⟩
          rw [Storage.getRaw_writeRaw_ne_key _ (ascii "analytics") cf _ cf K hK]
          exact hbase
        · rw [Storage.getRaw_writeRaw_ne_cf _ (ascii "analytics") cf _ cf K hcf2]
          exact hbase
    | some d =>
        cases hdec : decodeI64 d with
        | none =>
            have : Storage.put s cf K v b =
                (Storage.writeRaw s cf K v, .error (ascii "bincode deserialize error")) := by
              unfold Storage.put
              rw [if_neg hex]
              simp only [Storage.update_analytics, hcnt, hdec]
            rw [this] at h1
            simp at h1
        | some n =>
            have : Storage.put s cf K v b =
                (Storage.writeRaw (Storage.writeRaw s cf K v) (ascii "analytics") cf
                  (encodeI64 (n + 1)), .ok ()) := by
              unfold Storage.put
              rw [if_neg hex]
              simp only [Storage.update_analytics, hcnt, hdec]
            rw [this] at h1
            obtain ⟨rfl, -⟩ := Prod.mk.injEq .. ▸ h1
            by_cases hcf2 : cf = ascii "analytics"
            · have hK : K ≠ cf := by
                intro hc
                exact hcf ⟨hcf2, hc.trans hcf2⟩
              rw [Storage.getRaw_writeRaw_ne_key _ (ascii "analytics") cf _ cf K hK]
              exact hbase
            · rw [Storage.getRaw_writeRaw_ne_cf _ (ascii "analytics") cf _ cf K hcf2]
              exact hbase

/-- Claim C7 (amended).  After `put(F, K, v1, require_absent=true)`
succeeds, a second `put(F, K, v2, require_absent=true)` fails with the
record-exists error and leaves the store unchanged, and the value
stored under `K` in `F` is still `v1`.  Amendment forced by the
counterexample: when `F` is the analytics family, `K` may not be the
family-name key, since the analytics increment of the first put then
overwrites the freshly stored `v1`. -/
theorem C7_put_if_absent (s s1 : Store) (cf K v1 v2 : Bytes)
    (hcf : ¬(cf = ascii "analytics" ∧ K = ascii "analytics"))
    (h1 : Storage.put s cf K v1 true = (s1, .ok ())) :
    Storage.put s1 cf K v2 true =
      (s1, .error (ascii "Record exists! Mutating value is not allowed.")) ∧
    Storage.getRaw s1 cf K = some v1 := by
  have hval := Storage.put_ok_stored s s1 cf K v1 true hcf h1
  refine ⟨?_, hval⟩
  apply Storage.put_err_of_exists
  simp only [Bool.true_and, Storage.existsKey, hval, Option.isSome_some]

/-- Claim C7, counterexample to the claim as stated: with `F` the
analytics family and `K` the family-name key, the first put succeeds
but its own analytics increment immediately overwrites `v1`, so the
value stored after both calls is not `v1`. -/
theorem C7_counterexample :
    (Storage.put Storage.emptyStore (ascii "analytics") (ascii "analytics")
        (encodeI64 7) true).2 = .ok () ∧
    Storage.getRaw (Storage.put Storage.emptyStore (ascii "analytics") (ascii "analytics")
        (encodeI64 7) true).1 (ascii "analytics") (ascii "analytics") = some (encodeI64 8) ∧
    encodeI64 8 ≠ encodeI64 7 := by
  refine ⟨by decide, by decide, by decide⟩

/-- Claim C7, witness: an ordinary family and key; the second put is
rejected and the first value survives. -/
theorem C7_witness :
    Storage.put (Storage.put Storage.emptyStore (ascii "accounts") [3] [1] true).1
      (ascii "accounts") [3] [2] true =
      ((Storage.put Storage.emptyStore (ascii "accounts") [3] [1] true).1,
        .error (ascii "Record exists! Mutating value is not allowed.")) ∧
    Storage.getRaw (Storage.put Storage.emptyStore (ascii "accounts") [3] [1] true).1
      (ascii "accounts") [3] = some [1] := by
  exact C7_put_if_absent Storage.emptyStore _ (ascii "accounts") [3] [1] [2]
    (by decide) (Prod.ext_iff.mpr ⟨rfl, by decide⟩)

theorem xor_cancel_right_nat (a b : Nat) : a ^^^ b ^^^ b = a := by
  rw [Nat.xor_assoc, Nat.xor_self, Nat.xor_zero]

theorem xorBytes_cancel : ∀ (p ks : Bytes), ks.length = p.length →
    xorBytes (xorBytes p ks) ks = p := by
  intro p
  induction p with
  | nil => intro ks _; simp [xorBytes]
  | cons a t ih =>
      intro ks hks
      cases ks with
      | nil => simp at hks
      | cons k kt =>
          simp only [xorBytes, List.zipWith_cons_cons, List.cons.injEq]
          refine ⟨xor_cancel_right_nat a k, ?_⟩
          exact ih kt (by simpa using hks)

theorem keystream_length (key nonce : Bytes) (n : Nat) :
    (keystream key nonce n).length = n := by
  simp [keystream]

theorem xorBytes_length (a b : Bytes) :
    (xorBytes a b).length = min a.length b.length := by
  simp [xorBytes]

theorem foldXor_congr (f g : Nat → Nat) : ∀ n, (∀ j, j < n → f j = g j) →
    foldXor f n = foldXor g n := by
  intro n
  induction n with
  | zero => intro _; rfl
  | succ n ih =>
      intro h
      simp only [foldXor]
      rw [ih (fun j hj => h j (by omega)), h n (by omega)]

theorem foldXor_lt (f : Nat → Nat) (N : Nat) : ∀ n, (∀ j, j < n → f j < 2 ^ N) →
    foldXor f n < 2 ^ N := by
  intro n
  induction n with
  | zero => intro _; exact Nat.pos_pow_of_pos N (by norm_num)
  | succ n ih =>
      intro h
      simp only [foldXor]
      exact Nat.xor_lt_two_pow (ih (fun j hj => h j (by omega))) (h n (by omega))

theorem xor_right_comm_nat (a b c : Nat) : a ^^^ b ^^^ c = a ^^^ c ^^^ b := by
  rw [Nat.xor_assoc, Nat.xor_assoc, Nat.xor_comm b c]

theorem foldXor_flip (f g : Nat → Nat) : ∀ (n i : Nat), i < n →
    (∀ j, j < n → j ≠ i → f j = g j) →
    foldXor g n = foldXor f n ^^^ (f i ^^^ g i) := by
  intro n
  induction n with
  | zero => intro i hi; omega
  | succ n ih =>
      intro i hi hag
      simp only [foldXor]
      by_cases hin : i = n
      · rw [hin]
        rw [foldXor_congr f g n (fun j hj => hag j (by omega) (by omega))]
        rw [Nat.xor_assoc, ← Nat.xor_assoc (f n) (f n) (g n), Nat.xor_self, Nat.zero_xor]
      · have hi' : i < n := by omega
        rw [ih i hi' (fun j hj hne => hag j (by omega) hne)]
        rw [← hag n (by omega) (fun hc => hin hc.symm)]
        exact xor_right_comm_nat (foldXor f n) (f i ^^^ g i) (f n)

theorem contrib_lt (pos b : Nat) : contrib pos b < 2 ^ 128 := by
  apply foldXor_lt
  intro j hj
  have hpos : pos % 16 < 16 := Nat.mod_lt _ (by norm_num)
  split
  · exact Nat.pow_lt_pow_right (by norm_num) (by omega)
  · exact Nat.pos_pow_of_pos 128 (by norm_num)

theorem contrib_flip (pos b i : Nat) (hi : i < 8) :
    contrib pos (b ^^^ 2 ^ i) = contrib pos b ^^^ 2 ^ (8 * (pos % 16) + i) := by
  unfold contrib
  have h := foldXor_flip
    (fun j => if b.testBit j then 2 ^ (8 * (pos % 16) + j) else 0)
    (fun j => if (b ^^^ 2 ^ i).testBit j then 2 ^ (8 * (pos % 16) + j) else 0)
    8 i hi ?_
  · rw [h]
    congr 1
    have hbit : (b ^^^ 2 ^ i).testBit i = !(b.testBit i) := by
      rw [Nat.testBit_xor, Nat.testBit_two_pow_self]
      cases b.testBit i <;> rfl
    cases hb : b.testBit i <;> simp [hbit, hb]
  · intro j hj hne
    have : (b ^^^ 2 ^ i).testBit j = b.testBit j := by
      rw [Nat.testBit_xor, Nat.testBit_two_pow_of_ne (fun hc => hne hc.symm)]
      cases b.testBit j <;> rfl
    simp only [this]

theorem tagFrom_lt (l : Bytes) : ∀ pos, tagFrom pos l < 2 ^ 128 := by
  induction l with
  | nil => intro pos; exact Nat.pos_pow_of_pos 128 (by norm_num)
  | cons b t ih =>
      intro pos
      exact Nat.xor_lt_two_pow (contrib_lt pos b) (ih (pos + 1))

theorem tagFrom_append (l1 : Bytes) : ∀ (pos : Nat) (l2 : Bytes),
    tagFrom pos (l1 ++ l2) = tagFrom pos l1 ^^^ tagFrom (pos + l1.length) l2 := by
  induction l1 with
  | nil => intro pos l2; simp [tagFrom]
  | cons b t ih =>
      intro pos l2
      simp only [List.cons_append, tagFrom, List.length_cons, List.append_eq]
      rw [ih (pos + 1) l2]
      rw [show pos + 1 + t.length = pos + (t.length + 1) from by omega]
      exact (Nat.xor_assoc _ _ _).symm

theorem tagFrom_flip (pre : Bytes) (pos b i : Nat) (post : Bytes) (hi : i < 8) :
    tagFrom pos (pre ++ (b ^^^ 2 ^ i) :: post) =
      tagFrom pos (pre ++ b :: post) ^^^ 2 ^ (8 * ((pos + pre.length) % 16) + i) := by
  rw [tagFrom_append, tagFrom_append]
  simp only [tagFrom]
  rw [contrib_flip (pos + pre.length) b i hi]
  generalize tagFrom pos pre = A
  generalize contrib (pos + pre.length) b = C
  generalize (2 : Nat) ^ (8 * ((pos + pre.length) % 16) + i) = S
  generalize tagFrom (pos + pre.length + 1) post = D
  rw [show C ^^^ S ^^^ D = (C ^^^ D) ^^^ S from by
    rw [Nat.xor_assoc, Nat.xor_assoc]
    congr 1
    rw [Nat.xor_comm]]
  rw [← Nat.xor_assoc]

theorem xor_two_pow_ne (x e : Nat) : x ^^^ 2 ^ e ≠ x := by
  intro h
  have h2 : x ^^^ 2 ^ e ^^^ x = x ^^^ x := by rw [h]
  rw [Nat.xor_comm x (2 ^ e), Nat.xor_assoc, Nat.xor_self, Nat.xor_zero] at h2
  have := Nat.pos_pow_of_pos e (show 0 < 2 by norm_num)
  omega

theorem drop_append_of_length {α : Type} (l r : List α) : (l ++ r).drop l.length = r := by
  simp

theorem append_split_lt {α : Type} : ∀ (p l r q : List α) (x : α),
    l ++ r = p ++ x :: q → p.length < l.length →
    l = p ++ x :: l.drop (p.length + 1) ∧ q = l.drop (p.length + 1) ++ r := by
  intro p
  induction p with
  | nil =>
      intro l r q x h hlen
      cases l with
      | nil => simp at hlen
      | cons a t =>
          simp only [List.cons_append, List.nil_append, List.cons.injEq] at h
          obtain ⟨rfl, h2⟩ := h
          exact ⟨rfl, h2.symm⟩
  | cons pc pt ih =>
      intro l r q x h hlen
      cases l with
      | nil => simp at hlen
      | cons a t =>
          simp only [List.cons_append, List.cons.injEq] at h
          obtain ⟨rfl, h2⟩ := h
          simp only [List.length_cons] at hlen
          have hrec := ih t r q x h2 (by omega)
          exact ⟨congrArg (List.cons a) hrec.1, hrec.2⟩

theorem append_split_ge {α : Type} : ∀ (l p r q : List α) (x : α),
    l ++ r = p ++ x :: q → l.length ≤ p.length →
    p = l ++ p.drop l.length ∧ r = p.drop l.length ++ x :: q := by
  intro l
  induction l with
  | nil =>
      intro p r q x h _
      simp only [List.nil_append] at h
      exact ⟨rfl, h⟩
  | cons a t ih =>
      intro p r q x h hlen
      cases p with
      | nil => simp at hlen
      | cons pc pt =>
          simp only [List.cons_append, List.cons.injEq] at h
          obtain ⟨rfl, h2⟩ := h
          simp only [List.length_cons] at hlen
          have hrec := ih pt r q x h2 (by omega)
          exact ⟨congrArg (List.cons a) hrec.1, hrec.2⟩

theorem tagBytes_length (key nonce ct : Bytes) : (tagBytes key nonce ct).length = 16 :=
  natToLeBytes_length _ _

theorem append_cancel_left_list {α : Type} : ∀ (l : List α) {s t : List α},
    l ++ s = l ++ t → s = t := by
  intro l
  induction l with
  | nil => intro s t h; simpa using h
  | cons a l ih =>
      intro s t h
      simp only [List.cons_append, List.cons.injEq] at h
      exact ih h.2

theorem append_cons_ne {α : Type} (P S : List α) {x y : α} (h : x ≠ y) :
    P ++ x :: S ≠ P ++ y :: S := by
  intro hc
  have := append_cancel_left_list P hc
  simp only [List.cons.injEq] at this
  exact h this.1

theorem aead_open_append_tag (key nonce ct : Bytes) :
    aead_open key nonce (ct ++ tagBytes key nonce ct) =
      some (xorBytes ct (keystream key nonce ct.length)) := by
  unfold aead_open
  have hlen : (ct ++ tagBytes key nonce ct).length = ct.length + 16 := by
    rw [List.length_append, tagBytes_length]
  rw [if_neg (by omega)]
  have hsub : (ct ++ tagBytes key nonce ct).length - 16 = ct.length := by omega
  rw [hsub]
  have h1 : (ct ++ tagBytes key nonce ct).take ct.length = ct := take_append_of_length _ _
  have h2 : (ct ++ tagBytes key nonce ct).drop ct.length = tagBytes key nonce ct :=
    drop_append_of_length _ _
  rw [h1, h2, if_pos rfl]

theorem aead_open_append_ne (key nonce ct T : Bytes) (hT : T.length = 16)
    (hne : T ≠ tagBytes key nonce ct) : aead_open key nonce (ct ++ T) = none := by
  unfold aead_open
  have hlen : (ct ++ T).length = ct.length + 16 := by rw [List.length_append, hT]
  rw [if_neg (by omega)]
  have hsub : (ct ++ T).length - 16 = ct.length := by omega
  rw [hsub]
  have h1 : (ct ++ T).take ct.length = ct := take_append_of_length _ _
  have h2 : (ct ++ T).drop ct.length = T := drop_append_of_length _ _
  rw [h1, h2, if_neg hne]

theorem aead_open_seal (key nonce p : Bytes) :
    aead_open key nonce (aead_seal key nonce p) = some p := by
  unfold aead_seal
  rw [aead_open_append_tag]
  have hct : (xorBytes p (keystream key nonce p.length)).length = p.length := by
    rw [xorBytes_length, keystream_length, min_self]
  rw [hct]
  exact congrArg some (xorBytes_cancel p _ (keystream_length _ _ _))

theorem tagBytes_ne_flip (key nA cA nB cB P S : Bytes) (x b : Nat) (hb : b < 8)
    (hA : key ++ nA ++ cA = P ++ x :: S)
    (hB : key ++ nB ++ cB = P ++ (x ^^^ 2 ^ b) :: S) :
    tagBytes key nB cB ≠ tagBytes key nA cA := by
  intro hc
  have h256 : (256 : Nat) ^ 16 = 2 ^ 128 := by norm_num
  have hX : tagNat key nB cB = tagNat key nA cA := by
    apply natToLeBytes_inj (h256 ▸ tagFrom_lt _ _) (h256 ▸ tagFrom_lt _ _) hc
  unfold tagNat at hX
  rw [hA, hB, tagFrom_flip P 0 x b S hb] at hX
  exact xor_two_pow_ne (tagFrom 0 (P ++ x :: S)) _ hX

theorem decrypt_append_none (kb nonce rest : Bytes)
    (hklen : kb.length = 32) (hkval : ∀ v ∈ kb, v < 256) (hnlen : nonce.length = 12)
    (hopen : aead_open kb nonce rest = none) :
    Crypto.decrypt (nonce ++ rest) (hexEncodeBytes kb) =
      .error (ascii "Decryption failed") := by
  unfold Crypto.decrypt
  simp only [hexDecode_hexEncode hkval, hklen]
  norm_num
  rw [if_neg (by omega)]
  have h1 : (nonce ++ rest).take 12 = nonce := by
    rw [← hnlen]; exact take_append_of_length _ _
  have h2 : (nonce ++ rest).drop 12 = rest := by
    rw [← hnlen]; exact drop_append_of_length _ _
  rw [h1, h2, hopen]

theorem decrypt_append_some (kb nonce rest pt : Bytes)
    (hklen : kb.length = 32) (hkval : ∀ v ∈ kb, v < 256) (hnlen : nonce.length = 12)
    (hopen : aead_open kb nonce rest = some pt) :
    Crypto.decrypt (nonce ++ rest) (hexEncodeBytes kb) = .ok ⟨pt, none⟩ := by
  unfold Crypto.decrypt
  simp only [hexDecode_hexEncode hkval, hklen]
  norm_num
  rw [if_neg (by omega)]
  have h1 : (nonce ++ rest).take 12 = nonce := by
    rw [← hnlen]; exact take_append_of_length _ _
  have h2 : (nonce ++ rest).drop 12 = rest := by
    rw [← hnlen]; exact drop_append_of_length _ _
  rw [h1, h2, hopen]

theorem encrypt_with_key (genK nonce p kb : Bytes)
    (hklen : kb.length = 32) (hkval : ∀ v ∈ kb, v < 256) :
    Crypto.encrypt genK nonce p (some (hexEncodeBytes kb)) =
      .ok ⟨nonce ++ aead_seal kb nonce p, some (hexEncodeBytes kb)⟩ := by
  unfold Crypto.encrypt
  simp only [hexDecode_hexEncode hkval, hklen]
  norm_num

/-- Claim C4.  For every payload and every 32-byte key supplied as
hex, decrypting the encrypted blob under the same key returns exactly
the payload; and flipping any single bit of any byte of the blob
(nonce prefix, ciphertext or tag) makes decrypt return an error and
never a truncated or corrupted plaintext.  The bit flip at position
`pre.length` is expressed by the decomposition `blob = pre ++ x :: post`.
The AEAD seal/open primitives come from the external chacha20poly1305
crate and are modelled from the spec. -/
theorem C4_cipher_roundtrip_and_integrity (p kb nonce genK : Bytes)
    (hklen : kb.length = 32) (hkval : ∀ v ∈ kb, v < 256) (hnlen : nonce.length = 12) :
    (∀ c, Crypto.encrypt genK nonce p (some (hexEncodeBytes kb)) = .ok c →
        Crypto.decrypt c.data (hexEncodeBytes kb) = .ok ⟨p, none⟩) ∧
    (∀ (c : CryptoS) (pre post : Bytes) (x b : Nat),
        Crypto.encrypt genK nonce p (some (hexEncodeBytes kb)) = .ok c →
        c.data = pre ++ x :: post → b < 8 →
        Crypto.decrypt (pre ++ (x ^^^ 2 ^ b) :: post) (hexEncodeBytes kb) =
          .error (ascii "Decryption failed")) := by
  have henc := encrypt_with_key genK nonce p kb hklen hkval
  constructor
  · intro c hc
    rw [henc] at hc
    have hceq : (⟨nonce ++ aead_seal kb nonce p, some (hexEncodeBytes kb)⟩ : CryptoS) = c :=
      Except.ok.inj hc
    rw [← hceq]
    exact decrypt_append_some kb nonce _ p hklen hkval hnlen (aead_open_seal kb nonce p)
  · intro c pre post x b hc hdata hb
    rw [henc] at hc
    have hceq : (⟨nonce ++ aead_seal kb nonce p, some (hexEncodeBytes kb)⟩ : CryptoS) = c :=
      Except.ok.inj hc
    rw [← hceq] at hdata
    have hdata2 : nonce ++ (xorBytes p (keystream kb nonce p.length) ++
        tagBytes kb nonce (xorBytes p (keystream kb nonce p.length))) = pre ++ x :: post :=
      hdata
    generalize hCT : xorBytes p (keystream kb nonce p.length) = CT at hdata2
    generalize hTB : tagBytes kb nonce CT = TB at hdata2
    have hTBlen : TB.length = 16 := by rw [← hTB]; exact tagBytes_length _ _ _
    by_cases h1 : pre.length < nonce.length
    · obtain ⟨hn, hpost⟩ := append_split_lt pre nonce (CT ++ TB) post x hdata2 h1
      have hblob : pre ++ (x ^^^ 2 ^ b) :: post =
          (pre ++ (x ^^^ 2 ^ b) :: nonce.drop (pre.length + 1)) ++ (CT ++ TB) := by
        rw [hpost]
        simp [List.append_assoc]
      have hn2len : (pre ++ (x ^^^ 2 ^ b) :: nonce.drop (pre.length + 1)).length = 12 := by
        have hlig := congrArg List.length hn
        simp only [List.length_append, List.length_cons] at hlig ⊢
        omega
      have hflip := tagBytes_ne_flip kb nonce CT
        (pre ++ (x ^^^ 2 ^ b) :: nonce.drop (pre.length + 1)) CT
        (kb ++ pre) (nonce.drop (pre.length + 1) ++ CT) x b hb
        (by rw [hn]; simp [List.append_assoc])
        (by simp [List.append_assoc])
      have hne : TB ≠ tagBytes kb (pre ++ (x ^^^ 2 ^ b) :: nonce.drop (pre.length + 1)) CT := by
        rw [← hTB]
        exact fun hcc => hflip hcc.symm
      rw [hblob]
      exact decrypt_append_none kb _ (CT ++ TB) hklen hkval hn2len
        (aead_open_append_ne kb _ CT TB hTBlen hne)
    · obtain ⟨hpre, h2⟩ := append_split_ge nonce pre (CT ++ TB) post x hdata2 (by omega)
      by_cases h3 : (pre.drop nonce.length).length < CT.length
      · obtain ⟨hctdec, hpost⟩ := append_split_lt (pre.drop nonce.length) CT TB post x h2 h3
        have hblob : pre ++ (x ^^^ 2 ^ b) :: post =
            nonce ++ ((pre.drop nonce.length ++
              (x ^^^ 2 ^ b) :: CT.drop ((pre.drop nonce.length).length + 1)) ++ TB) := by
          conv_lhs => rw [hpre, hpost]
          simp [List.append_assoc]
        have hflip := tagBytes_ne_flip kb nonce CT nonce
          (pre.drop nonce.length ++ (x ^^^ 2 ^ b) :: CT.drop ((pre.drop nonce.length).length + 1))
          (kb ++ nonce ++ pre.drop nonce.length)
          (CT.drop ((pre.drop nonce.length).length + 1)) x b hb
          (by conv_lhs => rw [hctdec]
              simp [List.append_assoc])
          (by simp [List.append_assoc])
        have hne : TB ≠ tagBytes kb nonce (pre.drop nonce.length ++
            (x ^^^ 2 ^ b) :: CT.drop ((pre.drop nonce.length).length + 1)) := by
          rw [← hTB]
          exact fun hcc => hflip hcc.symm
        rw [hblob]
        exact decrypt_append_none kb nonce _ hklen hkval hnlen
          (aead_open_append_ne kb nonce _ TB hTBlen hne)
      · obtain ⟨hctpre, htagdec⟩ := append_split_ge CT (pre.drop nonce.length) TB post x h2
          (by omega)
        have hblob : pre ++ (x ^^^ 2 ^ b) :: post =
            nonce ++ (CT ++ ((pre.drop nonce.length).drop CT.length ++
              (x ^^^ 2 ^ b) :: post)) := by
          conv_lhs => rw [hpre, hctpre]
          simp [List.append_assoc]
        have hT2len : ((pre.drop nonce.length).drop CT.length ++
            (x ^^^ 2 ^ b) :: post).length = 16 := by
          rw [htagdec] at hTBlen
          simp only [List.length_append, List.length_cons] at hTBlen ⊢
          omega
        have hne : (pre.drop nonce.length).drop CT.length ++ (x ^^^ 2 ^ b) :: post ≠
            tagBytes kb nonce CT := by
          rw [hTB, htagdec]
          exact append_cons_ne _ post (xor_two_pow_ne x b)
        rw [hblob]
        exact decrypt_append_none kb nonce _ hklen hkval hnlen
          (aead_open_append_ne kb nonce CT _ hT2len hne)

/-- Claim C4, witness: a concrete 32-byte zero key, zero nonce and
payload `[1,2,3]`; decryption round-trips, and flipping bit 0 of the
first blob byte makes decryption fail. -/
theorem C4_witness :
    Crypto.decrypt ((List.replicate 12 0 : Bytes) ++
        aead_seal (List.replicate 32 0) (List.replicate 12 0) [1, 2, 3])
      (hexEncodeBytes (List.replicate 32 0)) = .ok ⟨[1, 2, 3], none⟩ ∧
    Crypto.decrypt ((0 ^^^ 2 ^ 0) :: ((List.replicate 12 0 : Bytes) ++
        aead_seal (List.replicate 32 0) (List.replicate 12 0) [1, 2, 3]).drop 1)
      (hexEncodeBytes (List.replicate 32 0)) = .error (ascii "Decryption failed") := by
  have h := C4_cipher_roundtrip_and_integrity [1, 2, 3] (List.replicate 32 0)
    (List.replicate 12 0) [] (by decide) (by decide) (by decide)
  refine ⟨?_, ?_⟩
  · exact h.1 ⟨(List.replicate 12 0 : Bytes) ++
      aead_seal (List.replicate 32 0) (List.replicate 12 0) [1, 2, 3],
      some (hexEncodeBytes (List.replicate 32 0))⟩ rfl
  · exact h.2 ⟨(List.replicate 12 0 : Bytes) ++
      aead_seal (List.replicate 32 0) (List.replicate 12 0) [1, 2, 3],
      some (hexEncodeBytes (List.replicate 32 0))⟩ []
      (((List.replicate 12 0 : Bytes) ++
        aead_seal (List.replicate 32 0) (List.replicate 12 0) [1, 2, 3]).drop 1)
      0 0 rfl (by decide) (by decide)

theorem readBytes_writeBytes {v : Bytes} (h : v.length < 2 ^ 64) (rest : Bytes) :
    readBytes (writeBytes v ++ rest) = some (v, rest) := by
  unfold readBytes writeBytes
  have hw : (natToLeBytes 8 v.length).length = 8 := natToLeBytes_length _ _
  have hlen : ((natToLeBytes 8 v.length ++ v) ++ rest).length =
      8 + v.length + rest.length := by
    simp [hw]
    omega
  rw [if_neg (by omega)]
  have happ : (natToLeBytes 8 v.length ++ v) ++ rest =
      natToLeBytes 8 v.length ++ (v ++ rest) := by simp
  rw [happ]
  have ht : (natToLeBytes 8 v.length ++ (v ++ rest)).take 8 = natToLeBytes 8 v.length := by
    rw [← hw]; exact take_append_of_length _ _
  have hd : (natToLeBytes 8 v.length ++ (v ++ rest)).drop 8 = v ++ rest := by
    rw [← hw]; exact drop_append_of_length _ _
  rw [ht, hd, leNat_natToLeBytes]
  have hmod : v.length % 256 ^ 8 = v.length := Nat.mod_eq_of_lt (by norm_num at h ⊢; omega)
  rw [hmod]
  rw [if_pos (by simp)]
  rw [take_append_of_length, drop_append_of_length]

theorem readU64_writeU64 {n : Nat} (h : n < 2 ^ 64) (rest : Bytes) :
    readU64 (writeU64 n ++ rest) = some (n, rest) := by
  unfold readU64 writeU64
  have hw : (natToLeBytes 8 n).length = 8 := natToLeBytes_length _ _
  rw [if_neg (by simp [hw])]
  have ht : (natToLeBytes 8 n ++ rest).take 8 = natToLeBytes 8 n := by
    rw [← hw]; exact take_append_of_length _ _
  have hd : (natToLeBytes 8 n ++ rest).drop 8 = rest := by
    rw [← hw]; exact drop_append_of_length _ _
  rw [ht, hd, leNat_natToLeBytes]
  have : n % 256 ^ 8 = n := Nat.mod_eq_of_lt (by norm_num at h ⊢; omega)
  rw [this]

theorem readU32_writeU32 {n : Nat} (h : n < 2 ^ 32) (rest : Bytes) :
    readU32 (writeU32 n ++ rest) = some (n, rest) := by
  unfold readU32 writeU32
  have hw : (natToLeBytes 4 n).length = 4 := natToLeBytes_length _ _
  rw [if_neg (by simp [hw])]
  have ht : (natToLeBytes 4 n ++ rest).take 4 = natToLeBytes 4 n := by
    rw [← hw]; exact take_append_of_length _ _
  have hd : (natToLeBytes 4 n ++ rest).drop 4 = rest := by
    rw [← hw]; exact drop_append_of_length _ _
  rw [ht, hd, leNat_natToLeBytes]
  have : n % 256 ^ 4 = n := Nat.mod_eq_of_lt (by norm_num at h ⊢; omega)
  rw [this]

theorem readTransactionData_write {td : TransactionDataS} (h : td.WF) (rest : Bytes) :
    readTransactionData (writeTransactionData td ++ rest) = some (td, rest) := by
  obtain ⟨h1, h2, h3⟩ := h
  simp only [writeTransactionData, readTransactionData, List.append_assoc,
    readBytes_writeBytes h1, readBytes_writeBytes h2, readU64_writeU64 h3]

theorem readEncryptData_write {e : EncryptDataS} (h : TransactionPrimitiveS.WF (.Encrypt e))
    (rest : Bytes) : readEncryptData (writeEncryptData e ++ rest) = some (e, rest) := by
  cases e with
  | Plain s =>
      simp only [writeEncryptData, readEncryptData, List.append_assoc,
        readU32_writeU32 (show (0 : Nat) < 2 ^ 32 by norm_num),
        readBytes_writeBytes (h : s.length < 2 ^ 64)]
      rfl
  | Vector v =>
      simp only [writeEncryptData, readEncryptData, List.append_assoc,
        readU32_writeU32 (show (1 : Nat) < 2 ^ 32 by norm_num),
        readBytes_writeBytes (h : v.length < 2 ^ 64)]
      rfl

theorem readTransactionPrimitive_write {tp : TransactionPrimitiveS} (h : tp.WF)
    (rest : Bytes) :
    readTransactionPrimitive (writeTransactionPrimitive tp ++ rest) = some (tp, rest) := by
  cases tp with
  | Plain td =>
      simp only [writeTransactionPrimitive, readTransactionPrimitive, List.append_assoc,
        readU32_writeU32 (show (0 : Nat) < 2 ^ 32 by norm_num),
        readTransactionData_write (h : td.WF)]
      rfl
  | Encrypt e =>
      simp only [writeTransactionPrimitive, readTransactionPrimitive, List.append_assoc,
        readU32_writeU32 (show (1 : Nat) < 2 ^ 32 by norm_num),
        readEncryptData_write h]
      rfl

theorem readEncryptedTransaction_write {e : EncryptedTransactionS} (h : e.WF)
    (rest : Bytes) :
    readEncryptedTransaction (writeEncryptedTransaction e ++ rest) = some (e, rest) := by
  obtain ⟨h1, h2, h3, h4, h5, h6, h7, h8⟩ := h
  simp only [writeEncryptedTransaction, readEncryptedTransaction, List.append_assoc,
    readBytes_writeBytes h1, readTransactionPrimitive_write h2,
    readTransactionPrimitive_write h3, readU64_writeU64 h4, readU64_writeU64 h5,
    readU64_writeU64 h6, readBytes_writeBytes h7, readBytes_writeBytes h8]

/-- Claim C2 (amended).  For every call to `Transaction::init`, the
id field of the returned plain transaction is the hex encoding of the
ASCII bytes of the 64-character lowercase hex rendering of the
256-bit blake3 hash of the big-endian 8-byte timestamp — 128 hex
characters, not 64: the source hex-encodes the already-hex `to_hex`
string a second time. -/
theorem C2_init_id (blake3 : Bytes → Bytes) (timestamp size fee : Nat)
    (sender receiver : Bytes) (amount : Nat) (narration : Bytes)
    (h32 : (blake3 (natToBeBytes 8 timestamp)).length = 32) :
    Transaction.init blake3 timestamp size fee sender receiver amount narration =
      .Plain ⟨hexEncodeBytes (hexEncodeBytes (blake3 (natToBeBytes 8 timestamp))),
        sender, receiver, amount, fee, size, timestamp, narration,
        ascii "Pending", none⟩ ∧
    (hexEncodeBytes (hexEncodeBytes (blake3 (natToBeBytes 8 timestamp)))).length = 128 := by
  refine ⟨rfl, ?_⟩
  rw [hexEncodeBytes_length, hexEncodeBytes_length, h32]

set_option maxRecDepth 8192 in
/-- Claim C2, counterexample to the claim as stated: at timestamp 0
(with a concrete 32-byte hash) the id has 128 characters, not 64, and
differs from the single hex encoding of the hash. -/
theorem C2_counterexample :
    (Transaction.init dummyBlake3 0 0 0 [] [] 0 []).idOf.length = 128 ∧
    (128 : Nat) ≠ 64 ∧
    (Transaction.init dummyBlake3 0 0 0 [] [] 0 []).idOf ≠
      hexEncodeBytes (dummyBlake3 (natToBeBytes 8 0)) := by
  refine ⟨by decide, by decide, by decide⟩

/-- Claim C2, witness: the amended theorem evaluated at timestamp 0
with the concrete stand-in hash. -/
theorem C2_witness :
    Transaction.init dummyBlake3 0 0 0 [] [] 0 [] =
      .Plain ⟨hexEncodeBytes (hexEncodeBytes (dummyBlake3 (natToBeBytes 8 0))),
        [], [], 0, 0, 0, 0, [], ascii "Pending", none⟩ ∧
    (hexEncodeBytes (hexEncodeBytes (dummyBlake3 (natToBeBytes 8 0)))).length = 128 :=
  C2_init_id dummyBlake3 0 0 0 [] [] 0 [] (by decide)

/-- Claim C9.  `get_transaction` and `get_transaction_details` are
extensionally equal: on the same store state, id and optional key
they return the same record or the same error (the two functions are
byte-for-byte identical in the source). -/
theorem C9_get_transaction_equiv (s : Store) (tx_id : Bytes) (tx_key : Option Bytes) :
    Transaction.get_transaction s tx_id tx_key =
      Transaction.get_transaction_details s tx_id tx_key := rfl

/-- Claim C5 (amended).  `public_from_private` returns the
invalid-encoding error exactly on non-hex input; on hex input that
decodes to fewer than 32 bytes it panics (out-of-bounds
`array_ref`), and on hex input decoding to 32 or more bytes it
returns a public key derived from the first 32 bytes — so for inputs
longer than 64 hex characters it returns a key instead of an error. -/
theorem C5_public_from_private (rb : Nat → Bytes) (input : Bytes) :
    (hexDecodeAscii input = none →
      KeyPair.verify rb input = .err (ascii "Invalid private key encoding")) ∧
    (∀ bs, hexDecodeAscii input = some bs → bs.length < 32 →
      KeyPair.verify rb input = .panicked) ∧
    (∀ bs, hexDecodeAscii input = some bs → 32 ≤ bs.length →
      KeyPair.verify rb input =
        .ok (hexEncodeBytes (rb (scalarFromBytesModOrder (bs.take 32))))) := by
  refine ⟨?_, ?_, ?_⟩
  · intro h
    unfold KeyPair.verify
    rw [h]
  · intro bs h hlen
    unfold KeyPair.verify
    simp only [h]
    rw [if_pos hlen]
  · intro bs h hlen
    unfold KeyPair.verify
    simp only [h]
    rw [if_neg (show ¬bs.length < 32 by omega)]

/-- Claim C5, counterexample to the claim as stated: the empty string
is valid hex (zero bytes), so the call panics rather than returning
an error; and 66 hex characters decode to 33 bytes, for which the
call returns a public key instead of an error. -/
theorem C5_counterexample :
    KeyPair.verify dummyRistretto [] = .panicked ∧
    KeyPair.verify dummyRistretto (List.replicate 66 48) =
      .ok (hexEncodeBytes (dummyRistretto 0)) := by
  refine ⟨by decide, by decide⟩

/-- Claim C5, witness: the three cases of the amended theorem at
concrete inputs — a non-hex byte, the two-character hex string "00",
and 64 hex zeros. -/
theorem C5_witness :
    KeyPair.verify dummyRistretto [103] = .err (ascii "Invalid private key encoding") ∧
    KeyPair.verify dummyRistretto [48, 48] = .panicked ∧
    KeyPair.verify dummyRistretto (List.replicate 64 48) =
      .ok (hexEncodeBytes (dummyRistretto 0)) := by
  have h1 := C5_public_from_private dummyRistretto [103]
  have h2 := C5_public_from_private dummyRistretto [48, 48]
  have h3 := C5_public_from_private dummyRistretto (List.replicate 64 48)
  refine ⟨h1.1 (by decide), h2.2.1 [0] (by decide) (by decide), ?_⟩
  rw [h3.2.2 (List.replicate 32 0) (by decide) (by decide)]
  decide

theorem writeBytes_length (v : Bytes) : (writeBytes v).length = 8 + v.length := by
  simp [writeBytes, natToLeBytes_length]

theorem writeTransactionData_length (td : TransactionDataS) :
    (writeTransactionData td).length =
      24 + td.sender.length + td.receiver.length := by
  simp [writeTransactionData, writeBytes_length, writeU64, natToLeBytes_length]
  omega

theorem aead_seal_length (k n p : Bytes) : (aead_seal k n p).length = p.length + 16 := by
  unfold aead_seal
  rw [List.length_append, xorBytes_length, keystream_length, min_self, tagBytes_length]

theorem encrypt_with_key_of_decode (genK nonce p key kb : Bytes)
    (hdec : hexDecodeAscii key = some kb) (hklen : kb.length = 32) :
    Crypto.encrypt genK nonce p (some key) =
      .ok ⟨nonce ++ aead_seal kb nonce p, some (hexEncodeBytes kb)⟩ := by
  unfold Crypto.encrypt
  simp only [hdec, hklen]
  norm_num

theorem encrypt_no_key (genK nonce p : Bytes) :
    Crypto.encrypt genK nonce p none =
      .ok ⟨nonce ++ aead_seal genK nonce p, some (hexEncodeBytes genK)⟩ := rfl

/-- Claim C1 (amended).  When a transaction whose sender address is
registered in the index family is processed, the returned plain
record carries the fresh sender-view key as `tx_key`; but
`get_transaction(id, tx_key)` does NOT return the record with the
decrypted sender view: the source decrypts both views under the one
provided key and propagates the receiver-view failure, so whenever
`tx_key` fails to open the receiver view (sealed under the receiver
key from the index) the call fails with the receiver-decryption
error — even though the stored sender view alone does decrypt under
`tx_key` to exactly the sealed `TransactionData` of
`{sender, receiver, amount}`. -/
theorem C1_transaction_roundtrip (s s2 : Store) (freshKey nonceR nonceS rk rkb : Bytes)
    (data : PlainTransactionS) (tx : TransactionS)
    (hWF : data.WF)
    (hidx : Account.get_account_index s data.sender = .ok rk)
    (hrk : hexDecodeAscii rk = some rkb) (hrklen : rkb.length = 32)
    (hfklen : freshKey.length = 32) (hfkval : ∀ v ∈ freshKey, v < 256)
    (hnR : nonceR.length = 12) (hnS : nonceS.length = 12)
    (hproc : Transaction.process_transaction s freshKey nonceR nonceS data = .ok (tx, s2))
    (hfail : aead_open freshKey nonceR (aead_seal rkb nonceR
        (writeTransactionData ⟨data.sender, data.receiver, data.amount⟩)) = none) :
    tx = .Plain { data with tx_key := some (hexEncodeBytes freshKey) } ∧
    Transaction.get_transaction s2 data.id (some (hexEncodeBytes freshKey)) =
      .error (ascii "Receiver decryption failed: " ++ ascii "Decryption failed") ∧
    Crypto.decrypt (nonceS ++ aead_seal freshKey nonceS
        (writeTransactionData ⟨data.sender, data.receiver, data.amount⟩))
      (hexEncodeBytes freshKey) =
      .ok ⟨writeTransactionData ⟨data.sender, data.receiver, data.amount⟩, none⟩ ∧
    readTransactionData (writeTransactionData ⟨data.sender, data.receiver, data.amount⟩) =
      some (⟨data.sender, data.receiver, data.amount⟩, []) := by
  obtain ⟨hid, hsend, hrecv, hamt, hfee, hsize, hts, hnarr, hstat⟩ := hWF
  have htdWF : TransactionDataS.WF ⟨data.sender, data.receiver, data.amount⟩ :=
    ⟨by simpa using (by omega : data.sender.length < 2 ^ 64),
     by simpa using (by omega : data.receiver.length < 2 ^ 64), hamt⟩
  have hWlen : (writeTransactionData ⟨data.sender, data.receiver, data.amount⟩).length =
      24 + data.sender.length + data.receiver.length := writeTransactionData_length _
  have hreadTD : readTransactionData
      (writeTransactionData ⟨data.sender, data.receiver, data.amount⟩) =
      some (⟨data.sender, data.receiver, data.amount⟩, []) := by
    have := readTransactionData_write htdWF []
    rwa [List.append_nil] at this
  unfold Transaction.process_transaction at hproc
  simp only [hidx, encrypt_with_key_of_decode freshKey nonceR _ rk rkb hrk hrklen,
    encrypt_no_key] at hproc
  cases hput : Storage.put s (ascii "transactions") (writeBytes data.id)
      (writeEncryptedTransaction ⟨data.id,
        .Encrypt (.Vector (nonceS ++ aead_seal freshKey nonceS
          (writeTransactionData ⟨data.sender, data.receiver, data.amount⟩))),
        .Encrypt (.Vector (nonceR ++ aead_seal rkb nonceR
          (writeTransactionData ⟨data.sender, data.receiver, data.amount⟩))),
        data.fee, data.size, data.timestamp, data.narration, data.status⟩) true with
  | mk s1 r =>
      rw [hput] at hproc
      cases r with
      | error e => simp at hproc
      | ok u =>
          have hinj := Except.ok.inj hproc
          have htx : TransactionS.Plain { data with
              tx_key := some (hexEncodeBytes freshKey) } = tx :=
            congrArg Prod.fst hinj
          have hs2 : s1 = s2 := congrArg Prod.snd hinj
          have hstored := Storage.put_ok_stored s s1 (ascii "transactions")
            (writeBytes data.id) _ true (fun hc => absurd hc.1 (by decide)) hput
          have hEWF : EncryptedTransactionS.WF ⟨data.id,
              .Encrypt (.Vector (nonceS ++ aead_seal freshKey nonceS
                (writeTransactionData ⟨data.sender, data.receiver, data.amount⟩))),
              .Encrypt (.Vector (nonceR ++ aead_seal rkb nonceR
                (writeTransactionData ⟨data.sender, data.receiver, data.amount⟩))),
              data.fee, data.size, data.timestamp, data.narration, data.status⟩ := by
            refine ⟨hid, ?_, ?_, hfee, hsize, hts, hnarr, hstat⟩
            · show (nonceS ++ aead_seal freshKey nonceS _).length < 2 ^ 64
              rw [List.length_append, aead_seal_length, hnS, hWlen]
              omega
            · show (nonceR ++ aead_seal rkb nonceR _).length < 2 ^ 64
              rw [List.length_append, aead_seal_length, hnR, hWlen]
              omega
          have hget : Storage.get s2 (ascii "transactions") (writeBytes data.id) =
              .ok (writeEncryptedTransaction ⟨data.id,
                .Encrypt (.Vector (nonceS ++ aead_seal freshKey nonceS
                  (writeTransactionData ⟨data.sender, data.receiver, data.amount⟩))),
                .Encrypt (.Vector (nonceR ++ aead_seal rkb nonceR
                  (writeTransactionData ⟨data.sender, data.receiver, data.amount⟩))),
                data.fee, data.size, data.timestamp, data.narration, data.status⟩) := by
            unfold Storage.get
            rw [← hs2, hstored]
          have hreadE := readEncryptedTransaction_write hEWF []
          rw [List.append_nil] at hreadE
          refine ⟨htx.symm, ?_, ?_, hreadTD⟩
          · unfold Transaction.get_transaction
            simp only [hget, hreadE, Option.getD_some,
              decrypt_append_some freshKey nonceS
                (aead_seal freshKey nonceS
                  (writeTransactionData ⟨data.sender, data.receiver, data.amount⟩))
                (writeTransactionData ⟨data.sender, data.receiver, data.amount⟩)
                hfklen hfkval hnS (aead_open_seal freshKey nonceS _),
              hreadTD,
              decrypt_append_none freshKey nonceR
                (aead_seal rkb nonceR
                  (writeTransactionData ⟨data.sender, data.receiver, data.amount⟩))
                hfklen hfkval hnR hfail]
          · exact decrypt_append_some freshKey nonceS _ _ hfklen hfkval hnS
              (aead_open_seal freshKey nonceS _)

set_option maxRecDepth 100000 in
set_option maxHeartbeats 1000000 in
/-- Claim C1, counterexample to the claim as stated: on a concrete
store whose index registers the sender address, processing succeeds
and returns the tx key, but `get_transaction(id, tx_key)` returns a
receiver-decryption error instead of the record with the decrypted
sender view. -/
theorem C1_counterexample :
    (match Transaction.process_transaction C1store C1freshKey C1nonceR C1nonceS C1data with
     | .ok (tx, s2) => some (tx, Transaction.get_transaction s2 C1data.id
         (match tx with | .Plain t => t.tx_key | .Encrypted _ => none))
     | .error _ => none) =
    some (.Plain { C1data with tx_key := some (hexEncodeBytes C1freshKey) },
      .error (ascii "Receiver decryption failed: " ++ ascii "Decryption failed")) := by
  decide

set_option maxRecDepth 100000 in
set_option maxHeartbeats 1000000 in
/-- Claim C1, witness: the amended theorem applied at the concrete
store, transaction, fresh key and nonces. -/
theorem C1_witness :
    Transaction.get_transaction
      (match Transaction.process_transaction C1store C1freshKey C1nonceR C1nonceS C1data with
       | .ok p => p.2
       | .error _ => C1store) C1data.id (some (hexEncodeBytes C1freshKey)) =
      .error (ascii "Receiver decryption failed: " ++ ascii "Decryption failed") := by
  have h := C1_transaction_roundtrip C1store
    (match Transaction.process_transaction C1store C1freshKey C1nonceR C1nonceS C1data with
     | .ok p => p.2
     | .error _ => C1store)
    C1freshKey C1nonceR C1nonceS (hexEncodeBytes (List.replicate 32 0))
    (List.replicate 32 0) C1data
    (.Plain { C1data with tx_key := some (hexEncodeBytes C1freshKey) })
    (by unfold PlainTransactionS.WF; decide)
    (by decide) (by decide) (by decide) (by decide) (by decide) (by decide) (by decide)
    rfl (by decide)
  exact h.2.1

theorem base58CharVal_charOf : ∀ d < 58, base58CharVal (base58CharOf d) = some d := by
  decide

theorem clz_decomp : ∀ bs : List Nat,
    List.replicate (countLeadingZeros bs) 0 ++ bs.drop (countLeadingZeros bs) = bs := by
  intro bs
  induction bs with
  | nil => rfl
  | cons b t ih =>
      by_cases hb : b = 0
      · subst hb
        have hc : countLeadingZeros (0 :: t) = countLeadingZeros t + 1 := by
          simp [countLeadingZeros]
        rw [hc, List.replicate_succ, List.cons_append, List.drop_succ_cons, ih]
      · simp [countLeadingZeros, hb]

theorem clz_head : ∀ bs : List Nat,
    (bs.drop (countLeadingZeros bs)).headD 1 ≠ 0 := by
  intro bs
  induction bs with
  | nil => simp
  | cons b t ih =>
      by_cases hb : b = 0
      · simpa [countLeadingZeros, hb] using ih
      · simp [countLeadingZeros, hb]

theorem ofDigits_replicate_zero (b k : Nat) :
    Nat.ofDigits b (List.replicate k 0) = 0 := by
  induction k with
  | zero => rfl
  | succ k ih => simp [List.replicate_succ, Nat.ofDigits_cons, ih]

theorem clz_replicate_append (z : Nat) (l : List Nat) :
    countLeadingZeros (List.replicate z 0 ++ l) = z + countLeadingZeros l := by
  induction z with
  | zero => simp
  | succ z ih =>
      rw [List.replicate_succ, List.cons_append]
      have hc : countLeadingZeros (0 :: (List.replicate z 0 ++ l)) =
          countLeadingZeros (List.replicate z 0 ++ l) + 1 := by
        simp [countLeadingZeros]
      rw [hc, ih]
      omega

theorem clz_of_headD (l : List Nat) (h : l.headD 1 ≠ 0) : countLeadingZeros l = 0 := by
  cases l with
  | nil => rfl
  | cons a t =>
      simp only [List.headD_cons] at h
      simp [countLeadingZeros, h]

theorem headD_reverse (l : List Nat) (d : Nat) : l.reverse.headD d = l.getLastD d := by
  cases hrev : l.reverse with
  | nil =>
      have hl : l = [] := by simpa using congrArg List.reverse hrev
      rw [hl]
      rfl
  | cons b bt =>
      have hl : l = bt.reverse ++ [b] := by
        have := congrArg List.reverse hrev
        simpa using this
      rw [hl]
      simp [List.getLastD_concat]

theorem getLastD_eq_getLast {l : List Nat} (hne : l ≠ []) (d : Nat) :
    l.getLastD d = l.getLast hne := by
  rw [List.getLastD_eq_getLast?, List.getLast?_eq_getLast _ hne]
  rfl

theorem allVals_append {l1 l2 : Bytes} {v1 v2 : List Nat}
    (h1 : allVals l1 = some v1) (h2 : allVals l2 = some v2) :
    allVals (l1 ++ l2) = some (v1 ++ v2) := by
  induction l1 generalizing v1 with
  | nil =>
      simp only [allVals] at h1
      cases h1
      simpa using h2
  | cons c t ih =>
      simp only [allVals] at h1
      cases hcv : base58CharVal c with
      | none => rw [hcv] at h1; simp at h1
      | some d =>
          rw [hcv] at h1
          cases ht : allVals t with
          | none => rw [ht] at h1; simp at h1
          | some r =>
              rw [ht] at h1
              simp only [Option.some.injEq] at h1
              subst h1
              rw [List.cons_append]
              simp only [allVals, hcv, ih ht, List.cons_append]

theorem allVals_replicate49 (z : Nat) :
    allVals (List.replicate z 49) = some (List.replicate z 0) := by
  induction z with
  | zero => rfl
  | succ z ih => simp [List.replicate_succ, allVals, ih, base58CharVal, idxOf,
      base58Alphabet, ascii]

theorem allVals_map_charOf (ds : List Nat) (h : ∀ d ∈ ds, d < 58) :
    allVals (ds.map base58CharOf) = some ds := by
  induction ds with
  | nil => rfl
  | cons d t ih =>
      simp only [List.map_cons, allVals,
        base58CharVal_charOf d (h d (List.mem_cons_self d t)),
        ih (fun x hx => h x (List.mem_cons_of_mem d hx))]

theorem base58_roundtrip (bs : Bytes) (h : ∀ b ∈ bs, b < 256) :
    base58decode (base58encode bs) = some bs := by
  have hdigits_lt : ∀ d ∈ Nat.digits 58 (beNat bs), d < 58 :=
    fun d hd => Nat.digits_lt_base (by norm_num) hd
  have hclzd : countLeadingZeros ((Nat.digits 58 (beNat bs)).reverse) = 0 := by
    by_cases hz : beNat bs = 0
    · rw [hz, Nat.digits_zero]
      rfl
    · apply clz_of_headD
      have hne : Nat.digits 58 (beNat bs) ≠ [] := Nat.digits_ne_nil_iff_ne_zero.mpr hz
      have hlast := Nat.getLast_digit_ne_zero 58 hz
      rw [headD_reverse, getLastD_eq_getLast hne]
      exact hlast
  have hclz : countLeadingZeros (List.replicate (countLeadingZeros bs) 0 ++
      (Nat.digits 58 (beNat bs)).reverse) = countLeadingZeros bs := by
    rw [clz_replicate_append, hclzd]
    omega
  have hofd : Nat.ofDigits 58 ((List.replicate (countLeadingZeros bs) 0 ++
      (Nat.digits 58 (beNat bs)).reverse).reverse) = beNat bs := by
    rw [List.reverse_append, List.reverse_reverse, List.reverse_replicate]
    rw [Nat.ofDigits_append, ofDigits_replicate_zero, Nat.ofDigits_digits]
    ring
  have hrdrop : ∀ v ∈ bs.drop (countLeadingZeros bs), v < 256 := by
    intro v hv
    exact h v (List.mem_of_mem_drop hv)
  have hben : beNat bs =
      Nat.ofDigits 256 ((bs.drop (countLeadingZeros bs)).reverse) := by
    unfold beNat
    conv_lhs => rw [← clz_decomp bs]
    rw [List.reverse_append, List.reverse_replicate, Nat.ofDigits_append,
      ofDigits_replicate_zero]
    ring
  simp only [base58encode, base58decode,
    allVals_append (allVals_replicate49 (countLeadingZeros bs))
      (allVals_map_charOf ((Nat.digits 58 (beNat bs)).reverse)
        (fun d hd => hdigits_lt d (by simpa using hd)))]
  rw [hclz, hofd]
  cases hrcase : bs.drop (countLeadingZeros bs) with
  | nil =>
      have hz : beNat bs = 0 := by
        rw [hben, hrcase]
        rfl
      rw [hz]
      simp only [Nat.digits_zero, List.reverse_nil, List.append_nil]
      refine congrArg some ?_
      conv_rhs => rw [← clz_decomp bs]
      rw [hrcase, List.append_nil]
  | cons rh rt =>
      have hdig : Nat.digits 256 (beNat bs) =
          (bs.drop (countLeadingZeros bs)).reverse := by
        rw [hben]
        apply Nat.digits_ofDigits 256 (by norm_num)
        · intro l hl
          exact hrdrop l (by simpa using hl)
        · intro hne2
          have hhead := clz_head bs
          rw [← getLastD_eq_getLast hne2 1, ← headD_reverse, List.reverse_reverse]
          exact hhead
      rw [hdig, List.reverse_reverse]
      refine congrArg some ?_
      exact clz_decomp bs

/-- Claim C8.  For every freshly generated keypair, verifying the
address derived from its public key succeeds, for every choice of the
fresh one-time keypair drawn inside derivation: the quantification
over the 32-byte compressed stealth point covers all one-time
keypairs, and the hash is any function with 32-byte byte-valued
output. -/
theorem C8_verify_generated_address (blake3 : Bytes → Bytes)
    (hb3len : ∀ l, (blake3 l).length = 32) (hb3val : ∀ l, ∀ v ∈ blake3 l, v < 256)
    (stealth : Bytes) (hslen : stealth.length = 32) (hsval : ∀ v ∈ stealth, v < 256) :
    Wallet.verify_address blake3 (Wallet.generate_address blake3 stealth) = .ok true := by
  have hcsval : ∀ v ∈ Wallet.calculate_checksum blake3 stealth, v < 256 :=
    fun v hv => hb3val stealth v (List.mem_of_mem_take hv)
  have hcslen : (Wallet.calculate_checksum blake3 stealth).length = 4 := by
    unfold Wallet.calculate_checksum
    rw [List.length_take, hb3len]
    omega
  have hval : ∀ v ∈ stealth ++ Wallet.calculate_checksum blake3 stealth, v < 256 := by
    intro v hv
    rcases List.mem_append.mp hv with hv | hv
    · exact hsval v hv
    · exact hcsval v hv
  have hrt := base58_roundtrip (stealth ++ Wallet.calculate_checksum blake3 stealth) hval
  unfold Wallet.generate_address Wallet.verify_address
  simp only [hrt]
  have hlen : (stealth ++ Wallet.calculate_checksum blake3 stealth).length = 36 := by
    rw [List.length_append, hslen, hcslen]
  rw [if_neg (by omega), hlen]
  have h32 : (36 : Nat) - 4 = stealth.length := by omega
  rw [h32, take_append_of_length, drop_append_of_length]
  simp

/-- Claim C8, witness: a concrete 32-byte stealth point and the
concrete stand-in hash. -/
theorem C8_witness :
    Wallet.verify_address dummyBlake3
      (Wallet.generate_address dummyBlake3 (List.replicate 32 5)) = .ok true :=
  C8_verify_generated_address dummyBlake3
    (fun l => by simp [dummyBlake3])
    (fun l v hv => by
      simp only [dummyBlake3, List.mem_map] at hv
      obtain ⟨i, -, rfl⟩ := hv
      exact Nat.mod_lt _ (by norm_num))
    (List.replicate 32 5) (by decide) (by decide)

/-- Claim C10.  For every store state and limit, listing accounts
with page 0 returns exactly the same result as with page 1: both map
to offset 0 into the accounts family, so page 0 neither underflows
nor errors. -/
theorem C10_page_zero_equals_page_one (s : Store) (limit : Nat) :
    Account.get_accounts s 0 limit = Account.get_accounts s 1 limit := rfl

set_option maxRecDepth 40000 in
/-- Claim C3.  The claim says a registered address whose checksum
does not verify makes `get_account` fail with the invalid-address
error; the code instead checks `verify_address(...).is_ok()`, and a
checksum mismatch is `Ok(false)`, so the account record is returned
anyway.  This theorem evaluates the code at the failing input: the
checksum check yields `Ok(false)`, yet `get_account` returns the
(redacted) record. -/
theorem C3_invalid_checksum_returns_account :
    Wallet.verify_address dummyBlake3 C3addr = .ok false ∧
    Account.get_account dummyBlake3 C3store C3addr =
      .ok ⟨C3addr, .Text (ascii "Encrypted provide private_key to decrypt"), 5⟩ := by
  have hzero : beNat (List.replicate 36 0) = 0 := by
    unfold beNat
    rw [List.reverse_replicate]
    exact ofDigits_replicate_zero 256 36
  have hclz36 : countLeadingZeros (List.replicate 36 0) = 36 := by
    have := clz_replicate_append 36 []
    simpa using this
  have henc : base58encode (List.replicate 36 0) = C3addr := by
    unfold base58encode
    rw [hzero, Nat.digits_zero, hclz36]
    rfl
  have hdec : base58decode C3addr = some (List.replicate 36 0) := by
    rw [← henc]
    exact base58_roundtrip _ (by decide)
  have hver : Wallet.verify_address dummyBlake3 C3addr = .ok false := by
    unfold Wallet.verify_address
    simp only [hdec]
    decide
  refine ⟨hver, ?_⟩
  unfold Account.get_account
  simp only [hver]
  decide
